import Mathlib

/-!
# A RESP codec, an append-only log and a connection dispatcher

A shallow embedding of `resp.go`, `aof.go` and `main.go`.

* Go `string` and `[]byte` data are byte sequences (`List Byte`); the `typ` tag,
  which the code only ever compares with literals, is a `String`.
* A slice is modelled by the sequence of its elements, so a `nil` slice and an
  empty slice are the same list.
* Go `int` is modelled by `Int`; `strconv.Atoi` rejects what does not fit 64 bits.
* `bufio.Reader` (standard library) is modelled with its buffer and the underlying
  `io.Reader`; the underlying reader is the sequence of blocks of bytes that its
  successive `Read` calls find available.
* A runtime panic is an explicit outcome.
-/

namespace RedisCore

/-- A byte. -/
abbrev Byte := UInt8

/-! ## `resp.go`: the wire markers -/

/-- `STRING = '+'`. -/
def STRING : Byte := 43
/-- `ERROR = '-'`. -/
def ERROR : Byte := 45
/-- `INTEGER = ':'`. -/
def INTEGER : Byte := 58
/-- `BULK = '$'`. -/
def BULK : Byte := 36
/-- `ARRAY = '*'`. -/
def ARRAY : Byte := 42
/-- Carriage return, `'\r'`. -/
def CR : Byte := 13
/-- Line feed, `'\n'`. -/
def LF : Byte := 10

/-- The struct `Value` of `resp.go`, field by field. -/
structure Value where
  typ : String
  str : List Byte
  num : Int
  bulk : List Byte
  array : List Value

mutual
/-- Equality of values is decidable. -/
def Value.decEq : (a b : Value) → Decidable (a = b)
  | ⟨t₁, s₁, n₁, b₁, a₁⟩, ⟨t₂, s₂, n₂, b₂, a₂⟩ =>
    if ht : t₁ = t₂ then
      if hs : s₁ = s₂ then
        if hn : n₁ = n₂ then
          if hb : b₁ = b₂ then
            match Value.decEqList a₁ a₂ with
            | isTrue ha => isTrue (by rw [ht, hs, hn, hb, ha])
            | isFalse ha => isFalse (fun h => ha (by injection h))
          else isFalse (fun h => hb (by injection h))
        else isFalse (fun h => hn (by injection h))
      else isFalse (fun h => hs (by injection h))
    else isFalse (fun h => ht (by injection h))
/-- Equality of lists of values is decidable. -/
def Value.decEqList : (as bs : List Value) → Decidable (as = bs)
  | [], [] => isTrue rfl
  | [], _ :: _ => isFalse (fun h => by injection h)
  | _ :: _, [] => isFalse (fun h => by injection h)
  | a :: as, b :: bs =>
    match Value.decEq a b with
    | isTrue h₁ =>
      match Value.decEqList as bs with
      | isTrue h₂ => isTrue (by rw [h₁, h₂])
      | isFalse h₂ => isFalse (fun h => h₂ (by injection h))
    | isFalse h₁ => isFalse (fun h => h₁ (by injection h))
end

instance : DecidableEq Value := Value.decEq

/-- The zero value `Value{}`. -/
def Value.zero : Value := ⟨"", [], 0, [], []⟩

/-- The literal `Value{typ: "string", str: s}`. -/
def Value.String (s : List Byte) : Value := ⟨"string", s, 0, [], []⟩
/-- The literal `Value{typ: "error", str: s}`. -/
def Value.Error (s : List Byte) : Value := ⟨"error", s, 0, [], []⟩
/-- The literal `Value{typ: "integer", num: n}`. -/
def Value.Integer (n : Int) : Value := ⟨"integer", [], n, [], []⟩
/-- The literal `Value{typ: "bulk", bulk: s}`. -/
def Value.Bulk (s : List Byte) : Value := ⟨"bulk", [], 0, s, []⟩
/-- The literal `Value{typ: "null"}`. -/
def Value.Null : Value := ⟨"null", [], 0, [], []⟩
/-- The literal `Value{typ: "array", array: vs}`. -/
def Value.Array (vs : List Value) : Value := ⟨"array", [], 0, [], vs⟩

/-! ## `strconv` -/

/-- The ASCII digit of `d < 10`. -/
def digit (d : Nat) : Byte := UInt8.ofNat (48 + d)

/-- Decimal digits of `n`, most significant first; `fuel > n` is always enough. -/
def formatBits : Nat → Nat → List Byte
  | 0, _ => []
  | fuel + 1, n =>
    if n < 10 then [digit n] else formatBits fuel (n / 10) ++ [digit (n % 10)]

/-- `strconv.Itoa`. -/
def Itoa (i : Int) : List Byte :=
  if i < 0 then 45 :: formatBits (i.natAbs + 1) i.natAbs
  else formatBits (i.natAbs + 1) i.natAbs

/-- Errors the code can meet: `io.EOF`, and the `*strconv.NumError` of `Atoi`. -/
inductive Error where
  | EOF
  | NumError
  deriving DecidableEq, Repr

deriving instance DecidableEq for Except

/-- The loop of `Atoi` over the digits: `n = n*10 + int(ch - '0')`, failing on a
byte that is not a digit. -/
def parseDigits : List Byte → Nat → Option Nat
  | [], acc => some acc
  | ch :: rest, acc =>
    if 48 ≤ ch.toNat ∧ ch.toNat ≤ 57 then parseDigits rest (acc * 10 + (ch.toNat - 48))
    else none

/-- `strconv.Atoi` on a 64-bit platform: an optional sign, then one or more decimal
digits, the value within the range of `int`; anything else is a `*NumError`. -/
def Atoi (s : List Byte) : Except Error Int :=
  let neg := s.head? = some 45
  let body := if s.head? = some 45 ∨ s.head? = some 43 then s.tail else s
  if body = [] then .error .NumError
  else match parseDigits body 0 with
    | none => .error .NumError
    | some n =>
      let i : Int := if neg then -(n : Int) else (n : Int)
      if -(2 : Int) ^ 63 ≤ i ∧ i < (2 : Int) ^ 63 then .ok i else .error .NumError

/-! ## `resp.go`: `Marshal` -/

/-- `Value.marshallString`. -/
def Value.marshallString (v : Value) : List Byte := STRING :: v.str ++ [CR, LF]

/-- `Value.marshallBulk`. -/
def Value.marshallBulk (v : Value) : List Byte :=
  BULK :: Itoa v.bulk.length ++ [CR, LF] ++ v.bulk ++ [CR, LF]

/-- `Value.marshallError`. -/
def Value.marshallError (v : Value) : List Byte := ERROR :: v.str ++ [CR, LF]

/-- `Value.marshallNull`: the bytes of `"$-1\r\n"`. -/
def Value.marshallNull (_v : Value) : List Byte := [36, 45, 49, 13, 10]

mutual
/-- `Value.Marshal`, with `marshallArray` inlined in the `"array"` case: the header,
then the loop appending each element's encoding. -/
def Value.Marshal : Value → List Byte
  | ⟨typ, str, num, bulk, array⟩ =>
    if typ = "array" then ARRAY :: Itoa array.length ++ [CR, LF] ++ marshalElems array
    else if typ = "bulk" then Value.marshallBulk ⟨typ, str, num, bulk, array⟩
    else if typ = "string" then Value.marshallString ⟨typ, str, num, bulk, array⟩
    else if typ = "null" then Value.marshallNull ⟨typ, str, num, bulk, array⟩
    else if typ = "error" then Value.marshallError ⟨typ, str, num, bulk, array⟩
    else []
/-- The loop of `marshallArray`: `bytes = append(bytes, v.array[i].Marshal()...)`. -/
def marshalElems : List Value → List Byte
  | [] => []
  | v :: vs => v.Marshal ++ marshalElems vs
end

/-- `Value.marshallArray`. -/
def Value.marshallArray (v : Value) : List Byte :=
  ARRAY :: Itoa v.array.length ++ [CR, LF] ++ marshalElems v.array

/-! ## `bufio.Reader` -/

/-- `bufio`'s default buffer size, the one `bufio.NewReader` uses. -/
def defaultBufSize : Nat := 4096

/-- One `Read` call, with a destination of `cap > 0` bytes, on the underlying
`io.Reader`. The reader is the list of the blocks its successive calls find
available (a file is one block: all of its remaining content); a call takes at
most `cap` bytes of the first block and leaves the rest of that block for the next
call. A block with nothing in it is passed over, a blocking read never returning
zero bytes without an error. No block left is `io.EOF`, shown by the empty result. -/
def rdRead (cap : Nat) : List (List Byte) → List Byte × List (List Byte)
  | [] => ([], [])
  | [] :: cs => rdRead cap cs
  | (b :: bs) :: cs =>
    ((b :: bs).take cap, if (b :: bs).drop cap = [] then cs else (b :: bs).drop cap :: cs)

/-- A `bufio.Reader`: `buf` is the buffered data not yet consumed (`b.buf[b.r:b.w]`),
`rd` the underlying reader. -/
structure Reader where
  buf : List Byte
  rd : List (List Byte)
  deriving DecidableEq

/-- `bufio.NewReader`. -/
def NewReader (rd : List (List Byte)) : Reader := ⟨[], rd⟩

/-- Number of bytes the reader can still deliver. -/
def Reader.size (r : Reader) : Nat := r.buf.length + r.rd.flatten.length

/-- `bufio.Reader.ReadByte`: the next buffered byte; on an empty buffer, fill it with
one read of up to `defaultBufSize` bytes first, `io.EOF` when that yields nothing. -/
def Reader.ReadByte (r : Reader) : Except Error Byte × Reader :=
  match r.buf with
  | b :: bs => (.ok b, { r with buf := bs })
  | [] =>
    match rdRead defaultBufSize r.rd with
    | ([], rd1) => (.error .EOF, ⟨[], rd1⟩)
    | (b :: bs, rd1) => (.ok b, ⟨bs, rd1⟩)

/-- `bufio.Reader.Read(p)` with `len(p) = n`: the bytes copied into the front of `p`
and the reader afterwards. It copies what is buffered, at most `n` bytes; on an
empty buffer it does exactly one read on the underlying reader, straight into `p`
when `n` is at least the buffer size and into the buffer otherwise. It does not
wait for `n` bytes. The count and error it returns are what `readBulk` discards. -/
def Reader.Read (n : Nat) (r : Reader) : List Byte × Reader :=
  if n = 0 then ([], r)
  else
    match r.buf with
    | [] =>
      if defaultBufSize ≤ n then
        ((rdRead n r.rd).1, ⟨[], (rdRead n r.rd).2⟩)
      else
        (((rdRead defaultBufSize r.rd).1).take n,
          ⟨((rdRead defaultBufSize r.rd).1).drop n, (rdRead defaultBufSize r.rd).2⟩)
    | b :: bs => ((b :: bs).take n, { r with buf := (b :: bs).drop n })

/-! ## `resp.go`: the decoder -/

/-- What a call returning `(Value, error)` can do: return with a nil error, return
with an error (the `Value` returned with it is kept), or panic. -/
inductive Outcome where
  | ok (v : Value)
  | error (v : Value) (e : Error)
  | panic
  deriving DecidableEq

/-- The loop of `readLine`: `line` and `n` are the named results so far. Each turn
consumes a byte, so `fuel` above the bytes left is never used up; at `0` the stream
is at its end. -/
def readLineLoop : Nat → Reader → List Byte → Nat → Except Error (List Byte × Nat) × Reader
  | 0, r, _, _ => (.error .EOF, r)
  | fuel + 1, r, line, n =>
    match r.ReadByte with
    | (.error e, r1) => (.error e, r1)
    | (.ok b, r1) =>
      if 2 ≤ (line ++ [b]).length ∧ (line ++ [b])[(line ++ [b]).length - 2]? = some CR then
        (.ok ((line ++ [b]).take ((line ++ [b]).length - 2), n + 1), r1)
      else readLineLoop fuel r1 (line ++ [b]) (n + 1)

/-- `Resp.readLine`: the line without its last two bytes, and the bytes consumed. -/
def readLine (r : Reader) : Except Error (List Byte × Nat) × Reader :=
  readLineLoop (r.size + 1) r [] 0

/-- `Resp.readInteger`: `(x, n, nil)` is `.ok (x, n)`; both callers drop `n` and
return at once on an error, so the error case keeps the error alone. -/
def readInteger (r : Reader) : Except Error (Int × Nat) × Reader :=
  match readLine r with
  | (.error e, r1) => (.error e, r1)
  | (.ok (line, n), r1) =>
    match Atoi line with
    | .error e => (.error e, r1)
    | .ok i64 => (.ok (i64, n), r1)

/-- `Resp.readBulk`. `make([]byte, len)` panics on a negative `len` and is `len`
zero bytes otherwise; `r.reader.Read(bulk)` overwrites its front with what it
copies; the result of the closing `readLine` is dropped. -/
def readBulk (r : Reader) : Outcome × Reader :=
  match readInteger r with
  | (.error e, r1) => (.error (Value.Bulk []) e, r1)
  | (.ok (len, _), r1) =>
    if len < 0 then (.panic, r1)
    else
      ((.ok (Value.Bulk
          ((r1.Read len.toNat).1 ++ List.replicate (len.toNat - (r1.Read len.toNat).1.length) 0))),
        (readLine (r1.Read len.toNat).2).2)

/-- The `for i := range length` loop of `readArray`, `k` turns left and `acc` the
elements stored so far; `read` is `r.Read`. On an error the array returned holds
`acc` and zero values in the places not reached. -/
def readArrayLoop (read : Reader → Outcome × Reader) :
    Nat → Reader → List Value → Outcome × Reader
  | 0, r, acc => (.ok (Value.Array acc), r)
  | k + 1, r, acc =>
    match read r with
    | (.ok val, r1) => readArrayLoop read k r1 (acc ++ [val])
    | (.error _ e, r1) => (.error (Value.Array (acc ++ List.replicate (k + 1) Value.zero)) e, r1)
    | (.panic, r1) => (.panic, r1)

/-- `Resp.readArray`, given `r.Read`. `make([]Value, length)` panics on a negative
`length`. -/
def readArray (read : Reader → Outcome × Reader) (r : Reader) : Outcome × Reader :=
  match readInteger r with
  | (.error e, r1) => (.error (Value.Array []) e, r1)
  | (.ok (length, _), r1) =>
    if length < 0 then (.panic, r1)
    else readArrayLoop read length.toNat r1 []

/-- `Resp.Read` to nesting depth `fuel`. Every level consumes a byte first, so `fuel`
above the bytes left is never used up; at `0` the stream is at its end. -/
def ReadFuel : Nat → Reader → Outcome × Reader
  | 0, r => (.error Value.zero .EOF, r)
  | fuel + 1, r =>
    match r.ReadByte with
    | (.error e, r1) => (.error Value.zero e, r1)
    | (.ok _type, r1) =>
      if _type = ARRAY then readArray (ReadFuel fuel) r1
      else if _type = BULK then readBulk r1
      else (.ok Value.zero, r1)

/-- `Resp.Read`. -/
def Read (r : Reader) : Outcome × Reader := ReadFuel (r.size + 1) r

/-- `NewResp`. -/
def NewResp (rd : List (List Byte)) : Reader := NewReader rd

/-- Bytes of an ASCII string literal. -/
def ascii (s : String) : List Byte := s.data.map fun c => UInt8.ofNat c.toNat

/-- A computation that may panic. -/
inductive Exec (α : Type) where
  | done (a : α)
  | panic
  deriving DecidableEq

/-! ## `aof.go` -/

/-- An `*os.File` opened for reading and writing: the file's bytes and the file
offset that `Read` and `Write` share. -/
structure File where
  content : List Byte
  offset : Nat
  deriving DecidableEq

/-- `os.File.Write(p)`, succeeding: `p` goes at the file offset, over whatever bytes
are there, and the offset moves past it (a gap before the offset would read as
zero bytes). -/
def File.Write (f : File) (p : List Byte) : File :=
  { content := f.content.take f.offset ++ List.replicate (f.offset - f.content.length) 0
      ++ p ++ f.content.drop (f.offset + p.length),
    offset := f.offset + p.length }

/-- The struct `Aof`: its file. (The field `rd` is never read and `mu` only
serialises callers.) -/
structure Aof where
  file : File
  deriving DecidableEq

/-- `NewAof` on a path whose file holds `content`:
`os.OpenFile(path, os.O_CREATE|os.O_RDWR, 0666)` opens it at offset 0. -/
def NewAof (content : List Byte) : Aof := ⟨⟨content, 0⟩⟩

/-- `Aof.Write`, the write succeeding. -/
def Aof.Write (aof : Aof) (value : Value) : Aof := ⟨aof.file.Write value.Marshal⟩

/-- The file as the `io.Reader` handed to `NewResp`: one block, what lies from the
file offset on. -/
def File.reader (f : File) : List (List Byte) := [f.content.drop f.offset]

/-- The file once the reader built on it is left with `rd`: the offset has moved
over every byte taken out of the file, buffered or consumed. -/
def File.afterRead (f : File) (rd : List (List Byte)) : File :=
  { f with offset := f.content.length - rd.flatten.length }

/-- `Aof.Read`. Each path through the body of its `for` leaves the loop: `break`
on `io.EOF`, `return err` otherwise, also when `err` is nil; so the body runs once.
The result is the returned error, the callback's state and the log. -/
def Aof.Read {σ : Type} (aof : Aof) (callback : Value → σ → Exec σ) (s : σ) :
    Exec (Option Error × σ × Aof) :=
  match RedisCore.Read (NewResp aof.file.reader) with
  | (.panic, _) => .panic
  | (.ok value, r) =>
    match callback value s with
    | .panic => .panic
    | .done s1 => .done (none, s1, ⟨aof.file.afterRead r.rd⟩)
  | (.error _ e, r) =>
    if e = .EOF then .done (none, s, ⟨aof.file.afterRead r.rd⟩)
    else .done (some e, s, ⟨aof.file.afterRead r.rd⟩)

/-! ## `main.go`: `handleConn` -/

/-- What `handleConn` uses and the three files do not define: `strings.ToUpper` and
the registry `Handlers`, a handler taking its arguments and the store to a result
and the store afterwards. -/
structure Env (σ : Type) where
  ToUpper : List Byte → List Byte
  Handlers : List Byte → Option (List Value → σ → Value × σ)

/-- The effects of `handleConn`, in the order they happen. -/
inductive Event where
  | aofWrite (value : Value)
  | handler (command : List Byte) (args : List Value)
  | connWrite (bytes : List Byte)
  deriving DecidableEq

/-- What `handleConn` works on: the blocks the connection will still deliver, the
bytes written to it, the log, the handlers' store, and the effects so far. -/
structure Server (σ : Type) where
  conn : List (List Byte)
  sent : List Byte
  aof : Aof
  store : σ
  trace : List Event
  deriving DecidableEq

/-- `Writer.Write` on the connection. -/
def Server.Write {σ : Type} (w : Server σ) (v : Value) : Server σ :=
  { w with sent := w.sent ++ v.Marshal, trace := w.trace ++ [.connWrite v.Marshal] }

/-- The body of the loop of `handleConn` once `resp.Read` has returned `value` with
a nil error; the result is the state in which the next turn starts. -/
def handleRequest {σ : Type} (env : Env σ) (value : Value) (w : Server σ) : Server σ :=
  if value.typ ≠ "array" then w
  else
    match value.array with
    | [] => w
    | first :: args =>
      match env.Handlers (env.ToUpper first.bulk) with
      | none => w.Write (Value.String [])
      | some handler =>
        let w1 : Server σ :=
          if env.ToUpper first.bulk = ascii "SET" ∨ env.ToUpper first.bulk = ascii "HSET" then
            { w with aof := w.aof.Write value,
                     trace := w.trace ++ [.aofWrite value] }
          else w
        let w2 : Server σ :=
          { w1 with store := (handler args w1.store).2,
                    trace := w1.trace ++ [.handler (env.ToUpper first.bulk) args] }
        w2.Write (handler args w1.store).1

/-- The loop of `handleConn`: every turn builds a new `Resp`, hence a new
`bufio.Reader` with an empty buffer, on the connection, and what that reader had
buffered and not consumed goes with it. A turn that does not end the loop takes at
least a byte off the connection, so `fuel` above the bytes to come is never used
up; at `0` the connection has nothing more and the read fails. -/
def handleConnFuel {σ : Type} (env : Env σ) : Nat → Server σ → Exec (Server σ)
  | 0, w => .done w
  | fuel + 1, w =>
    match Read (NewResp w.conn) with
    | (.panic, _) => .panic
    | (.error _ _, r) => .done { w with conn := r.rd }
    | (.ok value, r) => handleConnFuel env fuel (handleRequest env value { w with conn := r.rd })

/-- `handleConn`. -/
def handleConn {σ : Type} (env : Env σ) (w : Server σ) : Exec (Server σ) :=
  handleConnFuel env (w.conn.flatten.length + 1) w

/-! ## A registry to run the dispatcher on -/

/-- ASCII upper-casing, which is what `strings.ToUpper` does on ASCII text. -/
def asciiToUpper (s : List Byte) : List Byte :=
  s.map fun b => if 97 ≤ b.toNat ∧ b.toNat ≤ 122 then UInt8.ofNat (b.toNat - 32) else b

/-- Store of the sample registry: keys with their values, newest first. -/
abbrev Store := List (List Byte × List Byte)

instance : DecidableEq Store :=
  inferInstanceAs (DecidableEq (List (List UInt8 × List UInt8)))

/-- A handler for `PING`. -/
def pingHandler (_args : List Value) (s : Store) : Value × Store :=
  (Value.String (ascii "PONG"), s)

/-- A handler for `SET`. -/
def setHandler (args : List Value) (s : Store) : Value × Store :=
  match args with
  | [k, v] => (Value.String (ascii "OK"), (k.bulk, v.bulk) :: s)
  | _ => (Value.Error (ascii "ERR wrong number of arguments"), s)

/-- A handler for `GET`. -/
def getHandler (args : List Value) (s : Store) : Value × Store :=
  match args with
  | [k] =>
    match s.lookup k.bulk with
    | some v => (Value.Bulk v, s)
    | none => (Value.Null, s)
  | _ => (Value.Error (ascii "ERR wrong number of arguments"), s)

/-- Modelled from the spec: the Command Registry `Handlers`, whose source file is not
among the three; the spec gives it as a lookup from an upper-case name to a handler
from the arguments to a `Value`. This one has `PING`, `SET` and `GET`. -/
def sampleHandlers (command : List Byte) : Option (List Value → Store → Value × Store) :=
  if command = ascii "PING" then some pingHandler
  else if command = ascii "SET" then some setHandler
  else if command = ascii "GET" then some getHandler
  else none

/-- The sample environment. -/
def sampleEnv : Env Store := ⟨asciiToUpper, sampleHandlers⟩

/-- A server with nothing sent, an empty log and an empty store, about to receive
the given blocks. -/
def freshServer (conn : List (List Byte)) : Server Store := ⟨conn, [], NewAof [], [], []⟩

/-- A value built only from bulk-strings and arrays, arrays nested at will, each
with the fields its variant does not use left at zero: the shape of a request. -/
inductive IsRequest : Value → Prop where
  | bulk (s : List Byte) : IsRequest (Value.Bulk s)
  | array (vs : List Value) : (∀ v ∈ vs, IsRequest v) → IsRequest (Value.Array vs)

/-- The handler invocations among the effects, in order: command name and arguments. -/
def handlerCalls : List Event → List (List Byte × List Value)
  | [] => []
  | .handler command args :: es => (command, args) :: handlerCalls es
  | _ :: es => handlerCalls es

/-- The writes to the connection among the effects, in order. -/
def connWrites : List Event → List (List Byte)
  | [] => []
  | .connWrite bytes :: es => bytes :: connWrites es
  | _ :: es => connWrites es

/-- The records handed to `Aof.Write` among the effects, in order. -/
def aofWrites : List Event → List Value
  | [] => []
  | .aofWrite value :: es => value :: aofWrites es
  | _ :: es => aofWrites es

/-- A replay callback that only records the values it is called with. -/
def recordCall (value : Value) (seen : List Value) : Exec (List Value) := .done (seen ++ [value])

/-- The request `SET k v`. -/
def setKV : Value :=
  Value.Array [Value.Bulk (ascii "SET"), Value.Bulk (ascii "k"), Value.Bulk (ascii "v")]

/-- The request `SET k w`. -/
def setKW : Value :=
  Value.Array [Value.Bulk (ascii "SET"), Value.Bulk (ascii "k"), Value.Bulk (ascii "w")]

/-! ## `main.go`: the replay callback -/

/-- The callback `main` passes to `aof.Read`, acting on the handlers' store and the
effects so far. `value.array[0]` panics on an empty array. With no handler for the
command it calls `err.Error()` on the `err` of `main`, which is nil once `NewAof` has
succeeded: a nil dereference. -/
def replayCallback {σ : Type} (env : Env σ) (value : Value) (s : σ × List Event) :
    Exec (σ × List Event) :=
  match value.array with
  | [] => .panic
  | first :: args =>
    match env.Handlers (env.ToUpper first.bulk) with
    | none => .panic
    | some handler =>
      .done ((handler args s.1).2, s.2 ++ [.handler (env.ToUpper first.bulk) args])

/-- The words of the spec on arrays, "recursively decode `n` child units in order":
`k` successive reads from `r`, each returning with a nil error, give the values in
the order read and the reader after the last of them. -/
def successiveReads (read : Reader → Outcome × Reader) :
    Nat → Reader → Option (List Value × Reader)
  | 0, r => some ([], r)
  | k + 1, r =>
    match read r with
    | (.ok v, r1) =>
      match successiveReads read k r1 with
      | some (vs, r2) => some (v :: vs, r2)
      | none => none
    | _ => none

/-- The request `PING`, encoded. -/
def pingBytes : List Byte := ascii "*1\r\n$4\r\nPING\r\n"

/-- The request `NOPE X`, encoded. -/
def nopeBytes : List Byte := ascii "*2\r\n$4\r\nNOPE\r\n$1\r\nX\r\n"

/-- A log of 200 records `SET k v`, 5400 bytes. -/
def longLog : List Byte := (List.replicate 200 setKV.Marshal).flatten

/-! # Lemmas -/

/-! ## `strconv`: `Atoi` reads back what `Itoa` writes -/

theorem digit_toNat (d : Nat) (h : d < 10) : (digit d).toNat = 48 + d := by
  interval_cases d <;> rfl

theorem formatBits_digits (fuel n : Nat) :
    ∀ b ∈ formatBits fuel n, 48 ≤ b.toNat ∧ b.toNat ≤ 57 := by
  induction fuel generalizing n with
  | zero => intro b hb; simp [formatBits] at hb
  | succ fuel ih =>
    intro b hb
    unfold formatBits at hb
    split at hb
    · rename_i h
      simp only [List.mem_singleton] at hb
      subst hb
      rw [digit_toNat n h]; omega
    · rcases List.mem_append.mp hb with hb | hb
      · exact ih _ b hb
      · simp only [List.mem_singleton] at hb
        subst hb
        rw [digit_toNat _ (Nat.mod_lt n (by decide))]
        have := Nat.mod_lt n (show 0 < 10 by decide)
        omega

theorem formatBits_ne_nil (fuel n : Nat) : formatBits (fuel + 1) n ≠ [] := by
  unfold formatBits
  split <;> simp

theorem parseDigits_append (l₁ l₂ : List Byte) (acc : Nat) :
    parseDigits (l₁ ++ l₂) acc = (parseDigits l₁ acc).bind (parseDigits l₂) := by
  induction l₁ generalizing acc with
  | nil => simp [parseDigits]
  | cons b l ih =>
    simp only [List.cons_append, parseDigits]
    split
    · exact ih _
    · rfl

theorem parseDigits_formatBits (fuel n : Nat) (h : n < fuel) :
    parseDigits (formatBits fuel n) 0 = some n := by
  induction fuel generalizing n with
  | zero => omega
  | succ fuel ih =>
    unfold formatBits
    split
    · rename_i h10
      simp only [parseDigits, digit_toNat n h10]
      rw [if_pos (by omega)]
      congr 1
      omega
    · rename_i h10
      have hm := Nat.mod_lt n (show 0 < 10 by decide)
      rw [parseDigits_append, ih (n / 10) (by omega)]
      simp only [Option.some_bind, parseDigits, digit_toNat _ hm]
      rw [if_pos (by omega)]
      congr 1
      omega

/-- `Atoi(Itoa(n)) = n` for a length `n` that fits an `int`. -/
theorem Atoi_Itoa (n : Nat) (h : n < 2 ^ 63) : Atoi (Itoa (n : Int)) = .ok (n : Int) := by
  have hI : Itoa (n : Int) = formatBits (n + 1) n := by
    simp [Itoa]
  have hd := formatBits_digits (n + 1) n
  have hne := formatBits_ne_nil n n
  have hhead : ∀ b, (formatBits (n + 1) n).head? = some b → 48 ≤ b.toNat := by
    intro b hb
    exact (hd b (List.mem_of_mem_head? hb)).1
  have h45 : (formatBits (n + 1) n).head? ≠ some 45 := by
    intro hb
    have := hhead _ hb
    revert this; decide
  have h43 : (formatBits (n + 1) n).head? ≠ some 43 := by
    intro hb
    have := hhead _ hb
    revert this; decide
  rw [hI]
  unfold Atoi
  simp only [h45, h43, or_self, if_false, hne, parseDigits_formatBits (n + 1) n (by omega)]
  have h2 : ((n : Int) < 2 ^ 63) := by exact_mod_cast h
  have h1 : (-(2 : Int) ^ 63 ≤ (n : Int)) := by
    have : (0 : Int) ≤ n := Int.natCast_nonneg n
    omega
  rw [if_pos ⟨h1, h2⟩]

theorem Itoa_no_CR (n : Nat) : ∀ b ∈ Itoa (n : Int), b ≠ CR := by
  intro b hb
  have hI : Itoa (n : Int) = formatBits (n + 1) n := by
    simp [Itoa]
  rw [hI] at hb
  have := (formatBits_digits _ _ b hb).1
  intro hc
  subst hc
  revert this; decide

/-! ## Reading from a buffer that holds the whole unit -/

theorem ReadByte_cons (r : Reader) (b : Byte) (bs : List Byte) (h : r.buf = b :: bs) :
    r.ReadByte = (.ok b, { r with buf := bs }) := by
  unfold Reader.ReadByte
  rw [h]

theorem lineEnd_of_no_CR (line : List Byte) (b : Byte) (h : ∀ x ∈ line, x ≠ CR) :
    ¬ (2 ≤ (line ++ [b]).length ∧ (line ++ [b])[(line ++ [b]).length - 2]? = some CR) := by
  rintro ⟨h2, hc⟩
  simp only [List.length_append, List.length_singleton] at h2 hc
  rw [List.getElem?_append_left (by omega)] at hc
  exact h CR (List.getElem?_mem hc) rfl

/-- The loop of `readLine` on a buffer that starts with a line free of CR, then CR LF. -/
theorem readLineLoop_buffered (l : List Byte) :
    ∀ (fuel : Nat) (r : Reader) (line : List Byte) (n : Nat) (rest : List Byte),
      (∀ x ∈ line, x ≠ CR) → (∀ x ∈ l, x ≠ CR) → r.buf = l ++ CR :: LF :: rest →
      l.length + 2 ≤ fuel →
      readLineLoop fuel r line n = (.ok (line ++ l, n + l.length + 2), { r with buf := rest }) := by
  induction l with
  | nil =>
    intro fuel r line n rest hline _ hbuf hfuel
    obtain ⟨f, rfl⟩ : ∃ f, fuel = f + 2 := ⟨fuel - 2, by simp at hfuel; omega⟩
    simp only [List.nil_append] at hbuf
    rw [readLineLoop, ReadByte_cons r CR (LF :: rest) hbuf]
    simp only
    rw [if_neg (lineEnd_of_no_CR line CR hline)]
    rw [readLineLoop, ReadByte_cons _ LF rest rfl]
    simp only
    have hc : 2 ≤ (line ++ [CR] ++ [LF]).length ∧
        (line ++ [CR] ++ [LF])[(line ++ [CR] ++ [LF]).length - 2]? = some CR := by
      constructor
      · simp
      · simp only [List.length_append, List.length_singleton]
        rw [show line.length + 1 + 1 - 2 = line.length by omega]
        rw [List.append_assoc, List.getElem?_append_right (le_refl _)]
        simp
    rw [if_pos hc]
    simp only [List.length_append, List.length_singleton, List.append_nil, List.length_nil]
    rw [show line.length + 1 + 1 - 2 = line.length by omega, List.append_assoc, List.take_left]
  | cons b l ih =>
    intro fuel r line n rest hline hl hbuf hfuel
    obtain ⟨f, rfl⟩ : ∃ f, fuel = f + 1 := ⟨fuel - 1, by simp at hfuel; omega⟩
    rw [readLineLoop, ReadByte_cons r b (l ++ CR :: LF :: rest) (by simpa using hbuf)]
    simp only
    rw [if_neg (lineEnd_of_no_CR line b hline)]
    have hline2 : ∀ x ∈ line ++ [b], x ≠ CR := by
      intro x hx
      rcases List.mem_append.mp hx with hx | hx
      · exact hline x hx
      · simp only [List.mem_singleton] at hx
        subst hx
        exact hl x (List.mem_cons_self _ _)
    rw [ih f _ (line ++ [b]) (n + 1) rest hline2 (fun x hx => hl x (List.mem_cons_of_mem _ hx)) rfl
      (by simp at hfuel; omega)]
    simp only [List.append_assoc, List.singleton_append, List.length_cons]
    congr 3
    omega

theorem readLine_buffered (l rest : List Byte) (r : Reader) (hl : ∀ x ∈ l, x ≠ CR)
    (hbuf : r.buf = l ++ CR :: LF :: rest) :
    readLine r = (.ok (l, l.length + 2), { r with buf := rest }) := by
  unfold readLine
  rw [readLineLoop_buffered l _ r [] 0 rest (by simp) hl hbuf
    (by simp [Reader.size, hbuf]; omega)]
  simp

theorem readInteger_buffered (n : Nat) (hn : n < 2 ^ 63) (rest : List Byte) (r : Reader)
    (hbuf : r.buf = Itoa (n : Int) ++ CR :: LF :: rest) :
    readInteger r = (.ok ((n : Int), (Itoa (n : Int)).length + 2), { r with buf := rest }) := by
  unfold readInteger
  rw [readLine_buffered _ rest r (Itoa_no_CR n) hbuf]
  simp only [Atoi_Itoa n hn]

theorem Marshal_Bulk (s : List Byte) :
    (Value.Bulk s).Marshal = BULK :: Itoa (s.length : Int) ++ CR :: LF :: (s ++ CR :: LF :: []) := by
  simp [Value.Bulk, Value.Marshal, Value.marshallBulk]

theorem Marshal_Array (vs : List Value) :
    (Value.Array vs).Marshal = ARRAY :: Itoa (vs.length : Int) ++ CR :: LF :: marshalElems vs := by
  simp [Value.Array, Value.Marshal]

theorem marshalElems_append (xs ys : List Value) :
    marshalElems (xs ++ ys) = marshalElems xs ++ marshalElems ys := by
  induction xs with
  | nil => simp [marshalElems]
  | cons x xs ih => simp [marshalElems, ih]

theorem Marshal_length_le_marshalElems (vs : List Value) (v : Value) (h : v ∈ vs) :
    v.Marshal.length ≤ (marshalElems vs).length := by
  induction vs with
  | nil => simp at h
  | cons x xs ih =>
    simp only [marshalElems, List.length_append]
    rcases List.mem_cons.mp h with h | h
    · subst h; omega
    · have := ih h; omega

theorem IsRequest.marshal_pos {v : Value} (h : IsRequest v) : 0 < v.Marshal.length := by
  cases h with
  | bulk s => simp [Marshal_Bulk]
  | array vs _ => simp [Marshal_Array]

theorem length_le_marshalElems (vs : List Value) (h : ∀ v ∈ vs, IsRequest v) :
    vs.length ≤ (marshalElems vs).length := by
  induction vs with
  | nil => simp
  | cons x xs ih =>
    simp only [marshalElems, List.length_append, List.length_cons]
    have := (h x (List.mem_cons_self _ _)).marshal_pos
    have := ih (fun v hv => h v (List.mem_cons_of_mem _ hv))
    omega

theorem Reader_Read_buffered (r : Reader) (data rest : List Byte) (h : r.buf = data ++ rest) :
    r.Read data.length = (data, { r with buf := rest }) := by
  unfold Reader.Read
  split
  · rename_i h0
    have : data = [] := List.length_eq_zero.mp h0
    subst this
    cases r
    simp_all
  · rename_i h0
    cases hd : data with
    | nil => simp [hd] at h0
    | cons b bs =>
      rw [h, hd]
      simp only [List.cons_append]
      rw [← List.cons_append, List.take_left' rfl, List.drop_left' rfl]

/-- `readBulk` on a buffer holding a whole bulk-string after its marker. -/
theorem readBulk_buffered (s rest : List Byte) (hs : s.length < 2 ^ 63) (r : Reader)
    (hbuf : r.buf = Itoa (s.length : Int) ++ CR :: LF :: (s ++ CR :: LF :: rest)) :
    readBulk r = (.ok (Value.Bulk s), { r with buf := rest }) := by
  unfold readBulk
  rw [readInteger_buffered s.length hs _ r hbuf]
  simp only
  rw [if_neg (by omega)]
  simp only [Int.toNat_ofNat]
  rw [Reader_Read_buffered { r with buf := s ++ CR :: LF :: rest } s (CR :: LF :: rest) rfl]
  simp only [Nat.sub_self, List.replicate_zero, List.append_nil]
  rw [readLine_buffered [] rest _ (by simp) rfl]

/-- The loop of `readArray` on a buffer holding the encodings of `vs`, when `read`
decodes each of them from a buffer that starts with it. -/
theorem readArrayLoop_buffered (read : Reader → Outcome × Reader) (vs : List Value) :
    ∀ (r : Reader) (acc : List Value) (rest : List Byte),
      (∀ v ∈ vs, ∀ (r : Reader) (rest : List Byte), r.buf = v.Marshal ++ rest →
        read r = (.ok v, { r with buf := rest })) →
      r.buf = marshalElems vs ++ rest →
      readArrayLoop read vs.length r acc = (.ok (Value.Array (acc ++ vs)), { r with buf := rest }) := by
  induction vs with
  | nil =>
    intro r acc rest _ hbuf
    simp only [marshalElems, List.nil_append] at hbuf
    cases r
    simp_all [readArrayLoop]
  | cons v vs ih =>
    intro r acc rest hread hbuf
    simp only [marshalElems, List.append_assoc] at hbuf
    simp only [List.length_cons, readArrayLoop]
    rw [hread v (List.mem_cons_self _ _) r _ hbuf]
    simp only
    rw [ih _ (acc ++ [v]) rest (fun x hx => hread x (List.mem_cons_of_mem _ hx)) rfl]
    simp

/-- Decoding a request-shaped value from a buffer that starts with its encoding
returns the value and leaves what follows it in the buffer. -/
theorem ReadFuel_buffered {v : Value} (hv : IsRequest v) :
    ∀ (fuel : Nat) (r : Reader) (rest : List Byte),
      v.Marshal.length ≤ fuel → v.Marshal.length < 2 ^ 63 → r.buf = v.Marshal ++ rest →
      ReadFuel fuel r = (.ok v, { r with buf := rest }) := by
  induction hv with
  | bulk s =>
    intro fuel r rest hfuel hlen hbuf
    rw [Marshal_Bulk] at hfuel hlen hbuf
    obtain ⟨f, rfl⟩ : ∃ f, fuel = f + 1 := ⟨fuel - 1, by simp at hfuel; omega⟩
    rw [ReadFuel, ReadByte_cons r BULK _ (by simpa using hbuf)]
    simp only
    rw [if_pos trivial]
    rw [readBulk_buffered s rest (by simp at hlen; omega) _ (by simp)]
    rw [if_neg (show ¬ BULK = ARRAY by decide)]
  | array vs hvs ih =>
    intro fuel r rest hfuel hlen hbuf
    rw [Marshal_Array] at hfuel hlen hbuf
    obtain ⟨f, rfl⟩ : ∃ f, fuel = f + 1 := ⟨fuel - 1, by simp at hfuel; omega⟩
    rw [ReadFuel, ReadByte_cons r ARRAY _ (by simpa using hbuf)]
    simp only
    rw [if_pos trivial]
    have hle := length_le_marshalElems vs hvs
    simp only [List.length_cons, List.length_append] at hfuel hlen
    unfold readArray
    rw [readInteger_buffered vs.length (by omega) (marshalElems vs ++ rest) _ (by simp)]
    simp only
    rw [if_neg (by omega)]
    simp only [Int.toNat_ofNat]
    rw [readArrayLoop_buffered (ReadFuel f) vs _ [] rest _ rfl]
    · simp
    · intro v hv r rest hb
      have := Marshal_length_le_marshalElems vs v hv
      exact ih v hv f r rest (by omega) (by omega) hb

theorem rdRead_block (c : List Byte) (cs : List (List Byte)) (hc : c ≠ [])
    (hlen : c.length ≤ defaultBufSize) : rdRead defaultBufSize (c :: cs) = (c, cs) := by
  cases c with
  | nil => exact absurd rfl hc
  | cons b bs =>
    simp only [rdRead]
    rw [List.take_of_length_le hlen, List.drop_eq_nil_of_le hlen]
    simp

theorem ReadByte_fresh (c : List Byte) (cs : List (List Byte)) (hc : c ≠ [])
    (hlen : c.length ≤ defaultBufSize) :
    (NewResp (c :: cs)).ReadByte = (Reader.mk c cs).ReadByte := by
  cases c with
  | nil => exact absurd rfl hc
  | cons b bs =>
    simp only [NewResp, NewReader, Reader.ReadByte]
    rw [rdRead_block (b :: bs) cs hc hlen]

/-- A new `Resp` on a stream whose first block is the encoding of a request-shaped
value followed by `rest`, the block no longer than the buffer: `Read` returns the
value and is left with `rest` buffered. -/
theorem Read_block {v : Value} (hv : IsRequest v) (rest : List Byte) (cs : List (List Byte))
    (hlen : (v.Marshal ++ rest).length ≤ defaultBufSize) :
    Read (NewResp ((v.Marshal ++ rest) :: cs)) = (.ok v, ⟨rest, cs⟩) := by
  have hpos := hv.marshal_pos
  have hne : v.Marshal ++ rest ≠ [] := by
    intro h
    have := congrArg List.length h
    rw [List.length_append, List.length_nil] at this
    omega
  have hsz : (NewResp ((v.Marshal ++ rest) :: cs)).size = (Reader.mk (v.Marshal ++ rest) cs).size := by
    simp [NewResp, NewReader, Reader.size]
    omega
  have hstep : ∀ f, ReadFuel (f + 1) (NewResp ((v.Marshal ++ rest) :: cs))
      = ReadFuel (f + 1) (Reader.mk (v.Marshal ++ rest) cs) := by
    intro f
    rw [ReadFuel, ReadFuel, ReadByte_fresh _ cs hne hlen]
  unfold Read
  rw [hstep, hsz]
  simp only [List.length_append, defaultBufSize] at hlen
  rw [ReadFuel_buffered hv _ _ rest (by simp [Reader.size]; omega) (by omega) rfl]

/-! ## The decoder never gives bytes back to the underlying reader -/

theorem rdRead_length (cap : Nat) (rd : List (List Byte)) :
    (rdRead cap rd).1.length + (rdRead cap rd).2.flatten.length = rd.flatten.length := by
  induction rd with
  | nil => simp [rdRead]
  | cons c cs ih =>
    cases c with
    | nil => simpa [rdRead] using ih
    | cons b bs =>
      simp only [rdRead]
      split
      · rename_i h
        have h1 := congrArg List.length h
        simp only [List.length_drop, List.length_nil] at h1
        simp only [List.length_take, List.flatten_cons, List.length_append]
        omega
      · simp only [List.length_take, List.flatten_cons, List.length_append, List.length_drop]
        omega

theorem rdRead_le (cap : Nat) (rd : List (List Byte)) :
    (rdRead cap rd).2.flatten.length ≤ rd.flatten.length := by
  have := rdRead_length cap rd
  omega

theorem ReadByte_rd_le (r : Reader) : r.ReadByte.2.rd.flatten.length ≤ r.rd.flatten.length := by
  unfold Reader.ReadByte
  split
  · simp
  · have := rdRead_le defaultBufSize r.rd
    split <;> rename_i h <;> simp only [h] at this <;> exact this

theorem Reader_Read_rd_le (n : Nat) (r : Reader) :
    (r.Read n).2.rd.flatten.length ≤ r.rd.flatten.length := by
  unfold Reader.Read
  split
  · exact le_refl _
  · split
    · split
      · exact rdRead_le _ _
      · exact rdRead_le _ _
    · exact le_refl _

theorem readLineLoop_rd_le (fuel : Nat) :
    ∀ (r : Reader) (line : List Byte) (n : Nat),
      (readLineLoop fuel r line n).2.rd.flatten.length ≤ r.rd.flatten.length := by
  induction fuel with
  | zero => intro r line n; simp [readLineLoop]
  | succ fuel ih =>
    intro r line n
    have hb := ReadByte_rd_le r
    unfold readLineLoop
    split
    · rename_i h; simp only [h] at hb; exact hb
    · rename_i h
      simp only [h] at hb
      split
      · exact hb
      · exact le_trans (ih _ _ _) hb

theorem readLine_rd_le (r : Reader) : (readLine r).2.rd.flatten.length ≤ r.rd.flatten.length :=
  readLineLoop_rd_le _ r [] 0

theorem readInteger_rd_le (r : Reader) :
    (readInteger r).2.rd.flatten.length ≤ r.rd.flatten.length := by
  have h := readLine_rd_le r
  unfold readInteger
  split
  · rename_i h1; simp only [h1] at h; exact h
  · rename_i h1
    simp only [h1] at h
    split <;> exact h

theorem readBulk_rd_le (r : Reader) : (readBulk r).2.rd.flatten.length ≤ r.rd.flatten.length := by
  have h := readInteger_rd_le r
  unfold readBulk
  split
  · rename_i h1; simp only [h1] at h; exact h
  · rename_i h1
    simp only [h1] at h
    split
    · exact h
    · exact le_trans (readLine_rd_le _) (le_trans (Reader_Read_rd_le _ _) h)

theorem readArrayLoop_rd_le (read : Reader → Outcome × Reader)
    (hread : ∀ r, (read r).2.rd.flatten.length ≤ r.rd.flatten.length) (k : Nat) :
    ∀ (r : Reader) (acc : List Value),
      (readArrayLoop read k r acc).2.rd.flatten.length ≤ r.rd.flatten.length := by
  induction k with
  | zero => intro r acc; simp [readArrayLoop]
  | succ k ih =>
    intro r acc
    have h := hread r
    unfold readArrayLoop
    split
    · rename_i h1; simp only [h1] at h; exact le_trans (ih _ _) h
    · rename_i h1; simp only [h1] at h; exact h
    · rename_i h1; simp only [h1] at h; exact h

theorem readArray_rd_le (read : Reader → Outcome × Reader)
    (hread : ∀ r, (read r).2.rd.flatten.length ≤ r.rd.flatten.length) (r : Reader) :
    (readArray read r).2.rd.flatten.length ≤ r.rd.flatten.length := by
  have h := readInteger_rd_le r
  unfold readArray
  split
  · rename_i h1; simp only [h1] at h; exact h
  · rename_i h1
    simp only [h1] at h
    split
    · exact h
    · exact le_trans (readArrayLoop_rd_le read hread _ _ _) h

theorem ReadFuel_rd_le (fuel : Nat) :
    ∀ r : Reader, (ReadFuel fuel r).2.rd.flatten.length ≤ r.rd.flatten.length := by
  induction fuel with
  | zero => intro r; simp [ReadFuel]
  | succ fuel ih =>
    intro r
    have h := ReadByte_rd_le r
    unfold ReadFuel
    split
    · rename_i h1; simp only [h1] at h; exact h
    · rename_i h1
      simp only [h1] at h
      split
      · exact le_trans (readArray_rd_le _ ih _) h
      · split
        · exact le_trans (readBulk_rd_le _) h
        · exact h

theorem ReadByte_fresh_ok (rd : List (List Byte)) (b : Byte) (r1 : Reader)
    (h : (NewResp rd).ReadByte = (.ok b, r1)) : r1.rd.flatten.length < rd.flatten.length := by
  have hlen := rdRead_length defaultBufSize rd
  simp only [NewResp, NewReader, Reader.ReadByte] at h
  rcases hq : rdRead defaultBufSize rd with ⟨data, rd1⟩
  rw [hq] at h hlen
  cases data with
  | nil => simp at h
  | cons x xs =>
    simp only [Prod.mk.injEq] at h
    rw [← h.2]
    simp only [List.length_cons] at hlen
    simp only
    omega

/-- A read that succeeds on a new `Resp` has taken at least one byte off the stream. -/
theorem Read_fresh_consumes (rd : List (List Byte)) (v : Value) (r : Reader)
    (h : Read (NewResp rd) = (.ok v, r)) : r.rd.flatten.length < rd.flatten.length := by
  unfold Read at h
  rw [ReadFuel] at h
  rcases hq : (NewResp rd).ReadByte with ⟨e, r1⟩
  rw [hq] at h
  cases e with
  | error e => simp at h
  | ok b =>
    have h1 := ReadByte_fresh_ok rd b r1 hq
    have hmono : ∀ (o : Outcome × Reader), o = (Outcome.ok v, r) →
        o.2.rd.flatten.length ≤ r1.rd.flatten.length → r.rd.flatten.length < rd.flatten.length := by
      intro o ho hle
      subst ho
      simp only at hle
      omega
    simp only at h
    split at h
    · exact hmono _ h (readArray_rd_le _ (ReadFuel_rd_le _) _)
    · split at h
      · exact hmono _ h (readBulk_rd_le _)
      · exact hmono _ h (le_refl _)

/-! ## `handleConn`: the turns of the loop -/

theorem handleRequest_conn {σ : Type} (env : Env σ) (value : Value) (w : Server σ) :
    (handleRequest env value w).conn = w.conn := by
  unfold handleRequest
  split
  · rfl
  · split
    · rfl
    · split
      · rfl
      · simp only [Server.Write]
        split <;> rfl

/-- Above the number of bytes the connection will deliver, the fuel does not matter. -/
theorem handleConnFuel_fuel {σ : Type} (env : Env σ) (f₁ : Nat) :
    ∀ (f₂ : Nat) (w : Server σ), w.conn.flatten.length < f₁ → w.conn.flatten.length < f₂ →
      handleConnFuel env f₁ w = handleConnFuel env f₂ w := by
  induction f₁ with
  | zero => intro f₂ w h; omega
  | succ f₁ ih =>
    intro f₂ w h1 h2
    obtain ⟨g, rfl⟩ : ∃ g, f₂ = g + 1 := ⟨f₂ - 1, by omega⟩
    unfold handleConnFuel
    split
    · rfl
    · rfl
    · rename_i value r hr
      have hc := Read_fresh_consumes w.conn value r hr
      apply ih
      · rw [handleRequest_conn]; simp only; omega
      · rw [handleRequest_conn]; simp only; omega

/-- One turn of the loop of `handleConn` whose read succeeds: the request is handled
and the loop goes on with what the connection has yet to deliver. -/
theorem handleConn_turn {σ : Type} (env : Env σ) (w : Server σ) (value : Value) (r : Reader)
    (h : Read (NewResp w.conn) = (.ok value, r)) :
    handleConn env w = handleConn env (handleRequest env value { w with conn := r.rd }) := by
  have hc := Read_fresh_consumes w.conn value r h
  unfold handleConn
  rw [handleConnFuel, h]
  simp only
  apply handleConnFuel_fuel
  · rw [handleRequest_conn]; simp only; omega
  · rw [handleRequest_conn]; simp only; omega

/-! ## The fuel of the loops is never used up -/

theorem ReadByte_size_ok (r : Reader) (b : Byte) (r1 : Reader)
    (h : r.ReadByte = (.ok b, r1)) : r1.size + 1 = r.size := by
  unfold Reader.ReadByte at h
  split at h
  · rename_i x xs hx
    simp only [Prod.mk.injEq] at h
    rw [← h.2]
    simp [Reader.size, hx]
    omega
  · rename_i hx
    have hlen := rdRead_length defaultBufSize r.rd
    rcases hq : rdRead defaultBufSize r.rd with ⟨data, rd1⟩
    rw [hq] at h hlen
    cases data with
    | nil => simp at h
    | cons y ys =>
      simp only [Prod.mk.injEq] at h
      rw [← h.2]
      simp only [List.length_cons] at hlen
      simp only [Reader.size, hx, List.length_nil]
      omega

theorem ReadByte_size_le (r : Reader) : r.ReadByte.2.size ≤ r.size := by
  rcases hq : r.ReadByte with ⟨e, r1⟩
  cases e with
  | ok b => have := ReadByte_size_ok r b r1 hq; simp only; omega
  | error e =>
    unfold Reader.ReadByte at hq
    split at hq
    · simp at hq
    · rename_i hx
      have hlen := rdRead_length defaultBufSize r.rd
      rcases hq2 : rdRead defaultBufSize r.rd with ⟨data, rd1⟩
      rw [hq2] at hq hlen
      cases data with
      | nil =>
        simp only [Prod.mk.injEq] at hq
        rw [← hq.2]
        simp only [Reader.size, hx, List.length_nil] at hlen ⊢
        omega
      | cons y ys => simp at hq

theorem Reader_Read_size_le (n : Nat) (r : Reader) : (r.Read n).2.size ≤ r.size := by
  unfold Reader.Read
  split
  · exact le_refl _
  · split
    · rename_i hx
      split
      · have := rdRead_length n r.rd
        simp only [Reader.size, hx, List.length_nil]
        omega
      · have := rdRead_length defaultBufSize r.rd
        simp only [Reader.size, hx, List.length_nil, List.length_drop]
        omega
    · rename_i x xs hx
      simp only [Reader.size, hx, List.length_drop, List.length_cons]
      omega

theorem readLineLoop_size_le (fuel : Nat) :
    ∀ (r : Reader) (line : List Byte) (n : Nat), (readLineLoop fuel r line n).2.size ≤ r.size := by
  induction fuel with
  | zero => intro r line n; simp [readLineLoop]
  | succ fuel ih =>
    intro r line n
    have hb := ReadByte_size_le r
    unfold readLineLoop
    split
    · rename_i h; simp only [h] at hb; exact hb
    · rename_i h
      simp only [h] at hb
      split
      · exact hb
      · exact le_trans (ih _ _ _) hb

theorem readLine_size_le (r : Reader) : (readLine r).2.size ≤ r.size :=
  readLineLoop_size_le _ r [] 0

theorem readInteger_size_le (r : Reader) : (readInteger r).2.size ≤ r.size := by
  have h := readLine_size_le r
  unfold readInteger
  split
  · rename_i h1; simp only [h1] at h; exact h
  · rename_i h1
    simp only [h1] at h
    split <;> exact h

theorem readBulk_size_le (r : Reader) : (readBulk r).2.size ≤ r.size := by
  have h := readInteger_size_le r
  unfold readBulk
  split
  · rename_i h1; simp only [h1] at h; exact h
  · rename_i h1
    simp only [h1] at h
    split
    · exact h
    · exact le_trans (readLine_size_le _) (le_trans (Reader_Read_size_le _ _) h)

theorem readArrayLoop_size_le (read : Reader → Outcome × Reader)
    (hread : ∀ r, (read r).2.size ≤ r.size) (k : Nat) :
    ∀ (r : Reader) (acc : List Value), (readArrayLoop read k r acc).2.size ≤ r.size := by
  induction k with
  | zero => intro r acc; simp [readArrayLoop]
  | succ k ih =>
    intro r acc
    have h := hread r
    unfold readArrayLoop
    split
    · rename_i h1; simp only [h1] at h; exact le_trans (ih _ _) h
    · rename_i h1; simp only [h1] at h; exact h
    · rename_i h1; simp only [h1] at h; exact h

theorem readArray_size_le (read : Reader → Outcome × Reader)
    (hread : ∀ r, (read r).2.size ≤ r.size) (r : Reader) : (readArray read r).2.size ≤ r.size := by
  have h := readInteger_size_le r
  unfold readArray
  split
  · rename_i h1; simp only [h1] at h; exact h
  · rename_i h1
    simp only [h1] at h
    split
    · exact h
    · exact le_trans (readArrayLoop_size_le read hread _ _ _) h

theorem ReadFuel_size_le (fuel : Nat) : ∀ r : Reader, (ReadFuel fuel r).2.size ≤ r.size := by
  induction fuel with
  | zero => intro r; simp [ReadFuel]
  | succ fuel ih =>
    intro r
    have h := ReadByte_size_le r
    unfold ReadFuel
    split
    · rename_i h1; simp only [h1] at h; exact h
    · rename_i h1
      simp only [h1] at h
      split
      · exact le_trans (readArray_size_le _ ih _) h
      · split
        · exact le_trans (readBulk_size_le _) h
        · exact h

/-- The loop of `readLine` gives the same result on any fuel above the bytes left. -/
theorem readLineLoop_fuel (f₁ : Nat) :
    ∀ (f₂ : Nat) (r : Reader) (line : List Byte) (n : Nat), r.size < f₁ → r.size < f₂ →
      readLineLoop f₁ r line n = readLineLoop f₂ r line n := by
  induction f₁ with
  | zero => intro f₂ r line n h; omega
  | succ f₁ ih =>
    intro f₂ r line n h1 h2
    obtain ⟨g, rfl⟩ : ∃ g, f₂ = g + 1 := ⟨f₂ - 1, by omega⟩
    rw [readLineLoop, readLineLoop]
    rcases hq : r.ReadByte with ⟨e, r1⟩
    cases e with
    | error e => rfl
    | ok b =>
      have hs := ReadByte_size_ok r b r1 hq
      simp only
      split
      · rfl
      · exact ih g r1 _ _ (by omega) (by omega)

theorem readArrayLoop_congr (read₁ read₂ : Reader → Outcome × Reader) (bound : Nat)
    (hsize : ∀ r, (read₁ r).2.size ≤ r.size)
    (heq : ∀ r, r.size ≤ bound → read₁ r = read₂ r) (k : Nat) :
    ∀ (r : Reader) (acc : List Value), r.size ≤ bound →
      readArrayLoop read₁ k r acc = readArrayLoop read₂ k r acc := by
  induction k with
  | zero => intro r acc _; rfl
  | succ k ih =>
    intro r acc hr
    have hs := hsize r
    rw [readArrayLoop, readArrayLoop, ← heq r hr]
    rcases hq : read₁ r with ⟨o, r1⟩
    rw [hq] at hs
    cases o with
    | ok val => exact ih r1 _ (le_trans hs hr)
    | error v e => rfl
    | panic => rfl

theorem readArray_congr (read₁ read₂ : Reader → Outcome × Reader) (r : Reader)
    (hsize : ∀ r, (read₁ r).2.size ≤ r.size)
    (heq : ∀ r', r'.size ≤ r.size → read₁ r' = read₂ r') :
    readArray read₁ r = readArray read₂ r := by
  have hs := readInteger_size_le r
  unfold readArray
  rcases hq : readInteger r with ⟨e, r1⟩
  rw [hq] at hs
  cases e with
  | error e => rfl
  | ok p =>
    simp only
    split
    · rfl
    · exact readArrayLoop_congr read₁ read₂ r.size hsize heq _ r1 [] hs

/-- `Read` gives the same result on any fuel above the bytes left: the depth bound of
`ReadFuel` is never what stops it. -/
theorem ReadFuel_fuel (f₁ : Nat) :
    ∀ (f₂ : Nat) (r : Reader), r.size < f₁ → r.size < f₂ → ReadFuel f₁ r = ReadFuel f₂ r := by
  induction f₁ with
  | zero => intro f₂ r h; omega
  | succ f₁ ih =>
    intro f₂ r h1 h2
    obtain ⟨g, rfl⟩ : ∃ g, f₂ = g + 1 := ⟨f₂ - 1, by omega⟩
    rw [ReadFuel, ReadFuel]
    rcases hq : r.ReadByte with ⟨e, r1⟩
    cases e with
    | error e => rfl
    | ok b =>
      have hs := ReadByte_size_ok r b r1 hq
      simp only
      split
      · exact readArray_congr _ _ r1 (ReadFuel_size_le f₁)
          (fun r' hr' => ih g r' (by omega) (by omega))
      · rfl

/-- `Read` is `ReadFuel` on any fuel above the bytes left. -/
theorem Read_eq_ReadFuel (fuel : Nat) (r : Reader) (h : r.size < fuel) :
    Read r = ReadFuel fuel r :=
  ReadFuel_fuel _ fuel r (Nat.lt_succ_self _) h

/-! # The claims -/

theorem handlerCalls_append (xs ys : List Event) :
    handlerCalls (xs ++ ys) = handlerCalls xs ++ handlerCalls ys := by
  induction xs with
  | nil => rfl
  | cons e es ih => cases e <;> simp [handlerCalls, ih]

theorem connWrites_append (xs ys : List Event) :
    connWrites (xs ++ ys) = connWrites xs ++ connWrites ys := by
  induction xs with
  | nil => rfl
  | cons e es ih => cases e <;> simp [connWrites, ih]

theorem aofWrites_append (xs ys : List Event) :
    aofWrites (xs ++ ys) = aofWrites xs ++ aofWrites ys := by
  induction xs with
  | nil => rfl
  | cons e es ih => cases e <;> simp [aofWrites, ih]

/-- A write at the end of the file appends. -/
theorem File_Write_at_end (f : File) (p : List Byte) (h : f.offset = f.content.length) :
    (f.Write p).content = f.content ++ p := by
  simp [File.Write, h]

/-- A write right after `a`, which sits at offset `|P|`, puts `b` next to `a`. -/
theorem File_Write_after (P a D b : List Byte) :
    File.Write ⟨P ++ a ++ D, P.length + a.length⟩ b
      = ⟨P ++ a ++ b ++ D.drop b.length, P.length + a.length + b.length⟩ := by
  simp only [File.Write, File.mk.injEq, and_true]
  have h1 : List.take (P.length + a.length) (P ++ a ++ D) = P ++ a :=
    List.take_left' (by simp)
  have h2 : P.length + a.length - (P ++ a ++ D).length = 0 := by
    simp only [List.length_append]; omega
  have h3 : List.drop (P.length + a.length + b.length) (P ++ a ++ D) = List.drop b.length D := by
    rw [← List.drop_drop, List.drop_left' (by simp)]
  rw [h1, h2, h3]
  simp

/-- What a write leaves before the offset has the length of the offset. -/
theorem File_Write_eq (f : File) (p : List Byte) :
    ∃ P D : List Byte, P.length = f.offset ∧ f.Write p = ⟨P ++ p ++ D, P.length + p.length⟩ := by
  refine ⟨f.content.take f.offset ++ List.replicate (f.offset - f.content.length) 0,
    f.content.drop (f.offset + p.length), ?_, ?_⟩
  · simp only [List.length_append, List.length_take, List.length_replicate]; omega
  · have : (f.content.take f.offset ++ List.replicate (f.offset - f.content.length) 0).length
        = f.offset := by
      simp only [List.length_append, List.length_take, List.length_replicate]; omega
    simp only [File.Write, this]

theorem handleRequest_known {σ : Type} (env : Env σ) (w : Server σ) (value first : Value)
    (args : List Value) (handler : List Value → σ → Value × σ)
    (htyp : value.typ = "array") (harr : value.array = first :: args)
    (hreg : env.Handlers (env.ToUpper first.bulk) = some handler) :
    handleRequest env value w =
      if env.ToUpper first.bulk = ascii "SET" ∨ env.ToUpper first.bulk = ascii "HSET" then
        { conn := w.conn, sent := w.sent ++ (handler args w.store).1.Marshal,
          aof := w.aof.Write value, store := (handler args w.store).2,
          trace := w.trace ++ [.aofWrite value, .handler (env.ToUpper first.bulk) args,
            .connWrite (handler args w.store).1.Marshal] }
      else
        { conn := w.conn, sent := w.sent ++ (handler args w.store).1.Marshal,
          aof := w.aof, store := (handler args w.store).2,
          trace := w.trace ++ [.handler (env.ToUpper first.bulk) args,
            .connWrite (handler args w.store).1.Marshal] } := by
  unfold handleRequest
  rw [if_neg (by simp [htyp]), harr]
  simp only [hreg]
  split <;> simp [Server.Write]

theorem handleRequest_unknown {σ : Type} (env : Env σ) (w : Server σ) (value first : Value)
    (args : List Value) (htyp : value.typ = "array") (harr : value.array = first :: args)
    (hreg : env.Handlers (env.ToUpper first.bulk) = none) :
    handleRequest env value w =
      { w with sent := w.sent ++ [43, 13, 10], trace := w.trace ++ [.connWrite [43, 13, 10]] } := by
  unfold handleRequest
  rw [if_neg (by simp [htyp]), harr]
  simp only [hreg]
  rfl

theorem handleRequest_malformed {σ : Type} (env : Env σ) (w : Server σ) (value : Value)
    (h : value.typ ≠ "array" ∨ value.array = []) : handleRequest env value w = w := by
  unfold handleRequest
  rcases h with h | h
  · rw [if_pos h]
  · rw [h]; split <;> rfl

/-- C1, as stated, fails: the encoding `+OK\r\n` of the simple-string `OK` is not read
back as that value; `Read` consumes the marker alone and returns the zero `Value` with
a nil error. -/
theorem C1_simple_string_not_read_back :
    Read (NewResp [(Value.String (ascii "OK")).Marshal])
        = (.ok Value.zero, ⟨ascii "OK\r\n", []⟩) ∧
      (Read (NewResp [(Value.String (ascii "OK")).Marshal])).1
        ≠ .ok (Value.String (ascii "OK")) := by
  decide

/-- C1, amended: for every value built only from bulk-strings and arrays whose encoding
is no longer than the reader's buffer, `Read` on a stream that holds exactly
`v.Marshal()` and delivers it in one read (one block, as a file or an in-memory reader
does) returns `v` with a nil error, the stream read to its end. -/
theorem C1_roundtrip_request (v : Value) (hv : IsRequest v)
    (hlen : v.Marshal.length ≤ defaultBufSize) :
    Read (NewResp [v.Marshal]) = (.ok v, ⟨[], []⟩) := by
  have h := Read_block hv [] [] (by simpa using hlen)
  simpa using h

theorem isRequest_setKV : IsRequest setKV :=
  IsRequest.array _ (by
    intro v hv
    simp only [List.mem_cons, List.mem_singleton, List.not_mem_nil, or_false] at hv
    rcases hv with rfl | rfl | rfl <;> exact IsRequest.bulk _)

/-- C1, amended, on the request `SET k v` with an empty array nested beside it. -/
theorem C1_roundtrip_request_witness :
    IsRequest (Value.Array [setKV, Value.Array []]) ∧
      (Value.Array [setKV, Value.Array []]).Marshal.length ≤ defaultBufSize ∧
      Read (NewResp [(Value.Array [setKV, Value.Array []]).Marshal])
        = (.ok (Value.Array [setKV, Value.Array []]), ⟨[], []⟩) :=
  have hv : IsRequest (Value.Array [setKV, Value.Array []]) :=
    IsRequest.array _ (by
      intro v hv
      simp only [List.mem_cons, List.mem_singleton, List.not_mem_nil, or_false] at hv
      rcases hv with rfl | rfl
      · exact isRequest_setKV
      · exact IsRequest.array _ (by simp))
  ⟨hv, by decide, C1_roundtrip_request _ hv (by decide)⟩

/-- C2 fails on a bulk-string of 4090 bytes `A`: its header and the first 4089 payload
bytes fill the 4096-byte buffer, `r.reader.Read(bulk)` copies those 4089 and stops, and
`Read` returns, with a nil error, a payload whose last byte is zero instead of `A`.
The same on a connection that delivers `$5\r\nhel` and then `lo\r\n`. -/
theorem C2_bulk_across_buffer_end :
    Read (NewResp [(Value.Bulk (List.replicate 4090 65)).Marshal])
        = (.ok (Value.Bulk (List.replicate 4089 65 ++ [0])), ⟨[], []⟩) ∧
      Value.Bulk (List.replicate 4089 65 ++ [0]) ≠ Value.Bulk (List.replicate 4090 65) ∧
      Read (NewResp [ascii "$5\r\nhel", ascii "lo\r\n"])
        = (.ok (Value.Bulk (ascii "hel" ++ [0, 0])), ⟨[], []⟩) := by
  decide!

/-- C3 fails on a log of two records: `Aof.Read` calls the callback with the first
record and returns nil, the second record never decoded. -/
theorem C3_replay_stops_after_first_record :
    Aof.Read (NewAof (setKV.Marshal ++ setKW.Marshal)) recordCall []
      = .done (none, [setKV], ⟨⟨setKV.Marshal ++ setKW.Marshal, 54⟩⟩) := by
  decide

/-- C4 fails: the file is opened without `O_APPEND`, so `Aof.Write` writes at the file
offset. On a new instance, not replayed, it overwrites the head of the log; after
`Aof.Read` on a log longer than the buffer the offset is 4096 and the record goes over
the bytes there, the length of the log unchanged. -/
theorem C4_write_overwrites :
    (Aof.Write (NewAof setKV.Marshal) setKW).file.content = setKW.Marshal ∧
      (Aof.Write (NewAof setKV.Marshal) setKW).file.content
        ≠ setKV.Marshal ++ setKW.Marshal ∧
      Aof.Read (NewAof (List.replicate 200 setKV.Marshal).flatten) recordCall []
        = .done (none, [setKV], ⟨⟨(List.replicate 200 setKV.Marshal).flatten, 4096⟩⟩) ∧
      (Aof.Write ⟨⟨(List.replicate 200 setKV.Marshal).flatten, 4096⟩⟩ setKW).file.content
        = (List.replicate 200 setKV.Marshal).flatten.take 4096 ++ setKW.Marshal
          ++ (List.replicate 200 setKV.Marshal).flatten.drop (4096 + 27) ∧
      (Aof.Write ⟨⟨(List.replicate 200 setKV.Marshal).flatten, 4096⟩⟩ setKW).file.content
        ≠ (List.replicate 200 setKV.Marshal).flatten ++ setKW.Marshal := by
  decide!

/-- C5: two successive writes `a` then `b` on the same log leave, from the offset the
first one started at, exactly `a.Marshal() ++ b.Marshal()`, and the offset after them;
on a log whose offset is at its end the content becomes the old content followed by
the two encodings. -/
theorem C5_append_ordering (aof : Aof) (a b : Value) :
    (((aof.Write a).Write b).file.content.drop aof.file.offset).take
        (a.Marshal.length + b.Marshal.length) = a.Marshal ++ b.Marshal ∧
      ((aof.Write a).Write b).file.offset
        = aof.file.offset + a.Marshal.length + b.Marshal.length ∧
      (aof.file.offset = aof.file.content.length →
        ((aof.Write a).Write b).file.content
          = aof.file.content ++ a.Marshal ++ b.Marshal) := by
  obtain ⟨P, D, hP, hw⟩ := File_Write_eq aof.file a.Marshal
  have h2 : ((aof.Write a).Write b).file
      = ⟨P ++ a.Marshal ++ b.Marshal ++ D.drop b.Marshal.length,
          P.length + a.Marshal.length + b.Marshal.length⟩ := by
    simp only [Aof.Write]
    rw [hw, File_Write_after]
  refine ⟨?_, ?_, ?_⟩
  · rw [h2, ← hP]
    simp only [List.append_assoc]
    rw [List.drop_left]
    rw [← List.append_assoc, List.take_left' (by simp)]
  · rw [h2, hP]
  · intro hend
    have h1 : (aof.Write a).file.content = aof.file.content ++ a.Marshal :=
      File_Write_at_end _ _ hend
    have hoff : (aof.Write a).file.offset = (aof.Write a).file.content.length := by
      rw [h1]
      simp [Aof.Write, File.Write, hend]
    have := File_Write_at_end (aof.Write a).file b.Marshal hoff
    simp only [Aof.Write] at this h1 ⊢
    rw [this, h1]

/-- C5 on an empty log: after `SET k v` then `SET k w` it holds the two encodings. -/
theorem C5_append_ordering_witness :
    (NewAof []).file.offset = (NewAof []).file.content.length ∧
      (((NewAof []).Write setKV).Write setKW).file.content
        = [] ++ setKV.Marshal ++ setKW.Marshal :=
  ⟨by decide, (C5_append_ordering (NewAof []) setKV setKW).2.2 (by decide)⟩

/-- The turn of `handleConn` that reads a request naming a registered command: when the
upper-cased name is `SET` or `HSET` the only write to the log is one `Aof.Write` of the
request as read, so the bytes `Marshal(value)` at the log's offset (the end of the log
only when the offset is there), and it comes before the handler call; for any other
name the log is left as it was. -/
theorem handleConn_persisted_turn {σ : Type} (env : Env σ) (w : Server σ) (value : Value)
    (r : Reader) (first : Value) (args : List Value) (handler : List Value → σ → Value × σ)
    (hread : Read (NewResp w.conn) = (.ok value, r))
    (htyp : value.typ = "array") (harr : value.array = first :: args)
    (hreg : env.Handlers (env.ToUpper first.bulk) = some handler) :
    handleConn env w = handleConn env (handleRequest env value { w with conn := r.rd }) ∧
      (env.ToUpper first.bulk = ascii "SET" ∨ env.ToUpper first.bulk = ascii "HSET" →
        (handleRequest env value { w with conn := r.rd }).aof.file
            = w.aof.file.Write value.Marshal ∧
          (handleRequest env value { w with conn := r.rd }).trace
            = w.trace ++ [.aofWrite value, .handler (env.ToUpper first.bulk) args,
                .connWrite (handler args w.store).1.Marshal] ∧
          (w.aof.file.offset = w.aof.file.content.length →
            (handleRequest env value { w with conn := r.rd }).aof.file.content
              = w.aof.file.content ++ value.Marshal)) ∧
      (¬ (env.ToUpper first.bulk = ascii "SET" ∨ env.ToUpper first.bulk = ascii "HSET") →
        (handleRequest env value { w with conn := r.rd }).aof = w.aof ∧
          (handleRequest env value { w with conn := r.rd }).trace
            = w.trace ++ [.handler (env.ToUpper first.bulk) args,
                .connWrite (handler args w.store).1.Marshal]) := by
  refine ⟨handleConn_turn env w value r hread, ?_, ?_⟩
  · intro hset
    rw [handleRequest_known env _ value first args handler htyp harr hreg, if_pos hset]
    refine ⟨rfl, rfl, ?_⟩
    intro hend
    exact File_Write_at_end _ _ hend
  · intro hset
    rw [handleRequest_known env _ value first args handler htyp harr hreg, if_neg hset]
    exact ⟨rfl, rfl⟩

/-- The turn on `set k v`, sent in lower case to a server with an empty log: the log
then holds the request as it was sent. -/
theorem handleConn_persisted_turn_example :
    Read (NewResp (freshServer [ascii "*3\r\n$3\r\nset\r\n$1\r\nk\r\n$1\r\nv\r\n"]).conn)
        = (.ok (Value.Array [Value.Bulk (ascii "set"), Value.Bulk (ascii "k"),
            Value.Bulk (ascii "v")]), ⟨[], []⟩) ∧
      sampleEnv.ToUpper (Value.Bulk (ascii "set")).bulk = ascii "SET" ∧
      (handleRequest sampleEnv
          (Value.Array [Value.Bulk (ascii "set"), Value.Bulk (ascii "k"), Value.Bulk (ascii "v")])
          { freshServer [ascii "*3\r\n$3\r\nset\r\n$1\r\nk\r\n$1\r\nv\r\n"] with
            conn := (Reader.mk [] []).rd }).aof.file.content
        = (freshServer [ascii "*3\r\n$3\r\nset\r\n$1\r\nk\r\n$1\r\nv\r\n"]).aof.file.content
          ++ (Value.Array [Value.Bulk (ascii "set"), Value.Bulk (ascii "k"),
            Value.Bulk (ascii "v")]).Marshal :=
  ⟨by decide, by decide,
    ((handleConn_persisted_turn sampleEnv
      (freshServer [ascii "*3\r\n$3\r\nset\r\n$1\r\nk\r\n$1\r\nv\r\n"])
      (Value.Array [Value.Bulk (ascii "set"), Value.Bulk (ascii "k"), Value.Bulk (ascii "v")])
      ⟨[], []⟩ (Value.Bulk (ascii "set")) [Value.Bulk (ascii "k"), Value.Bulk (ascii "v")]
      setHandler (by decide) (by decide) (by decide) rfl).2.1 (Or.inl (by decide))).2.2
      (by decide)⟩

/-- C7: in the turn of `handleConn` that reads a non-empty array whose first element
names, once upper-cased, a registered command, the handler is called exactly once, with
the elements after the first in order, and exactly `Marshal(result)` is written to the
connection. -/
theorem C7_dispatch_known {σ : Type} (env : Env σ) (w : Server σ) (value : Value)
    (r : Reader) (first : Value) (args : List Value) (handler : List Value → σ → Value × σ)
    (hread : Read (NewResp w.conn) = (.ok value, r))
    (htyp : value.typ = "array") (harr : value.array = first :: args)
    (hreg : env.Handlers (env.ToUpper first.bulk) = some handler) :
    handleConn env w = handleConn env (handleRequest env value { w with conn := r.rd }) ∧
      handlerCalls (handleRequest env value { w with conn := r.rd }).trace
        = handlerCalls w.trace ++ [(env.ToUpper first.bulk, args)] ∧
      (handleRequest env value { w with conn := r.rd }).store = (handler args w.store).2 ∧
      connWrites (handleRequest env value { w with conn := r.rd }).trace
        = connWrites w.trace ++ [(handler args w.store).1.Marshal] ∧
      (handleRequest env value { w with conn := r.rd }).sent
        = w.sent ++ (handler args w.store).1.Marshal := by
  refine ⟨handleConn_turn env w value r hread, ?_⟩
  rw [handleRequest_known env _ value first args handler htyp harr hreg]
  split
  · simp [handlerCalls_append, connWrites_append, handlerCalls, connWrites]
  · simp [handlerCalls_append, connWrites_append, handlerCalls, connWrites]

/-- C7 on `get k`: one call of the `GET` handler with `[k]`, and the null bulk-string
written back. -/
theorem C7_dispatch_known_witness :
    Read (NewResp (freshServer [ascii "*2\r\n$3\r\nget\r\n$1\r\nk\r\n"]).conn)
        = (.ok (Value.Array [Value.Bulk (ascii "get"), Value.Bulk (ascii "k")]), ⟨[], []⟩) ∧
      sampleEnv.Handlers (sampleEnv.ToUpper (Value.Bulk (ascii "get")).bulk) = some getHandler ∧
      handlerCalls (handleRequest sampleEnv
          (Value.Array [Value.Bulk (ascii "get"), Value.Bulk (ascii "k")])
          { freshServer [ascii "*2\r\n$3\r\nget\r\n$1\r\nk\r\n"] with
            conn := (Reader.mk [] []).rd }).trace
        = handlerCalls (freshServer [ascii "*2\r\n$3\r\nget\r\n$1\r\nk\r\n"]).trace
          ++ [(sampleEnv.ToUpper (Value.Bulk (ascii "get")).bulk, [Value.Bulk (ascii "k")])] ∧
      (handleRequest sampleEnv
          (Value.Array [Value.Bulk (ascii "get"), Value.Bulk (ascii "k")])
          { freshServer [ascii "*2\r\n$3\r\nget\r\n$1\r\nk\r\n"] with
            conn := (Reader.mk [] []).rd }).sent = ascii "$-1\r\n" :=
  have h := C7_dispatch_known sampleEnv (freshServer [ascii "*2\r\n$3\r\nget\r\n$1\r\nk\r\n"])
    (Value.Array [Value.Bulk (ascii "get"), Value.Bulk (ascii "k")]) ⟨[], []⟩
    (Value.Bulk (ascii "get")) [Value.Bulk (ascii "k")] getHandler
    (by decide) (by decide) (by decide) rfl
  ⟨by decide, rfl, h.2.1, by decide⟩

/-- The turn of `handleConn` that reads a non-empty array whose upper-cased first bulk
field is not in the registry: exactly `+\r\n` is written to the connection, no handler
is called, the log and the store stay as they were, and the loop goes on with what the
connection has yet to deliver, the bytes this turn's reader had buffered left out. -/
theorem handleConn_unknown_turn {σ : Type} (env : Env σ) (w : Server σ) (value : Value)
    (r : Reader) (first : Value) (args : List Value)
    (hread : Read (NewResp w.conn) = (.ok value, r))
    (htyp : value.typ = "array") (harr : value.array = first :: args)
    (hreg : env.Handlers (env.ToUpper first.bulk) = none) :
    handleConn env w = handleConn env
      { conn := r.rd, sent := w.sent ++ [43, 13, 10], aof := w.aof, store := w.store,
        trace := w.trace ++ [.connWrite [43, 13, 10]] } := by
  rw [handleConn_turn env w value r hread,
    handleRequest_unknown env _ value first args htyp harr hreg]

/-- The turn on `NOPE X`, a `PING` arriving after it in a block of its own: `+\r\n`,
then the reply to the `PING`. -/
theorem handleConn_unknown_turn_example :
    Read (NewResp (freshServer [ascii "*2\r\n$4\r\nNOPE\r\n$1\r\nX\r\n",
          ascii "*1\r\n$4\r\nPING\r\n"]).conn)
        = (.ok (Value.Array [Value.Bulk (ascii "NOPE"), Value.Bulk (ascii "X")]),
            ⟨[], [ascii "*1\r\n$4\r\nPING\r\n"]⟩) ∧
      sampleEnv.Handlers (sampleEnv.ToUpper (Value.Bulk (ascii "NOPE")).bulk) = none ∧
      handleConn sampleEnv (freshServer [ascii "*2\r\n$4\r\nNOPE\r\n$1\r\nX\r\n",
          ascii "*1\r\n$4\r\nPING\r\n"])
        = handleConn sampleEnv
            { conn := [ascii "*1\r\n$4\r\nPING\r\n"], sent := [] ++ [43, 13, 10],
              aof := NewAof [], store := [],
              trace := [] ++ [.connWrite [43, 13, 10]] } ∧
      handleConn sampleEnv (freshServer [ascii "*2\r\n$4\r\nNOPE\r\n$1\r\nX\r\n",
          ascii "*1\r\n$4\r\nPING\r\n"])
        = .done ⟨[], ascii "+\r\n+PONG\r\n", NewAof [], [],
            [.connWrite (ascii "+\r\n"), .handler (ascii "PING") [],
              .connWrite (ascii "+PONG\r\n")]⟩ :=
  ⟨by decide, rfl,
    handleConn_unknown_turn sampleEnv
      (freshServer [ascii "*2\r\n$4\r\nNOPE\r\n$1\r\nX\r\n", ascii "*1\r\n$4\r\nPING\r\n"])
      (Value.Array [Value.Bulk (ascii "NOPE"), Value.Bulk (ascii "X")])
      ⟨[], [ascii "*1\r\n$4\r\nPING\r\n"]⟩ (Value.Bulk (ascii "NOPE")) [Value.Bulk (ascii "X")]
      (by decide) (by decide) (by decide) rfl,
    by decide⟩

/-- C9, as stated, fails: the request `*1\r\n*0\r\n`, an array whose first element is
an empty array, is answered with `+\r\n` where no handler is registered under the empty
name. -/
theorem C9_array_first_element_answered :
    Read (NewResp [ascii "*1\r\n*0\r\n"]) = (.ok (Value.Array [Value.Array []]), ⟨[], []⟩) ∧
      handleConn sampleEnv (freshServer [ascii "*1\r\n*0\r\n"])
        = .done ⟨[], ascii "+\r\n", NewAof [], [], [.connWrite (ascii "+\r\n")]⟩ := by
  decide

/-- C9, amended: a decoded request that is not an array, or is an empty array, leaves
the connection, the log and the store untouched and calls no handler, and the loop
goes on; an array whose first element is not a bulk-string is not turned away: the
command name is that element's `bulk` field, and with no handler registered under its
upper-cased form `+\r\n` is written. -/
theorem C9_malformed_ignored {σ : Type} (env : Env σ) (w : Server σ) (value : Value)
    (r : Reader) (hread : Read (NewResp w.conn) = (.ok value, r)) :
    (value.typ ≠ "array" ∨ value.array = [] →
        handleConn env w = handleConn env { w with conn := r.rd }) ∧
      (∀ (first : Value) (args : List Value), value.typ = "array" →
        value.array = first :: args → first.typ ≠ "bulk" →
        env.Handlers (env.ToUpper first.bulk) = none →
        handleConn env w = handleConn env
          { conn := r.rd, sent := w.sent ++ [43, 13, 10], aof := w.aof, store := w.store,
            trace := w.trace ++ [.connWrite [43, 13, 10]] }) := by
  constructor
  · intro h
    rw [handleConn_turn env w value r hread, handleRequest_malformed env _ value h]
  · intro first args htyp harr _ hreg
    rw [handleConn_turn env w value r hread,
      handleRequest_unknown env _ value first args htyp harr hreg]

/-- C9, amended, on a bulk-string sent at top level and then a `PING`: nothing is
written for the bulk-string and the `PING` is answered. -/
theorem C9_malformed_ignored_witness :
    Read (NewResp (freshServer [ascii "$3\r\nfoo\r\n", ascii "*1\r\n$4\r\nPING\r\n"]).conn)
        = (.ok (Value.Bulk (ascii "foo")), ⟨[], [ascii "*1\r\n$4\r\nPING\r\n"]⟩) ∧
      ((Value.Bulk (ascii "foo")).typ ≠ "array" ∨ (Value.Bulk (ascii "foo")).array = []) ∧
      handleConn sampleEnv (freshServer [ascii "$3\r\nfoo\r\n", ascii "*1\r\n$4\r\nPING\r\n"])
        = handleConn sampleEnv (freshServer [ascii "*1\r\n$4\r\nPING\r\n"]) ∧
      handleConn sampleEnv (freshServer [ascii "$3\r\nfoo\r\n", ascii "*1\r\n$4\r\nPING\r\n"])
        = .done ⟨[], ascii "+PONG\r\n", NewAof [], [],
            [.handler (ascii "PING") [], .connWrite (ascii "+PONG\r\n")]⟩ :=
  ⟨by decide, by decide,
    (C9_malformed_ignored sampleEnv
      (freshServer [ascii "$3\r\nfoo\r\n", ascii "*1\r\n$4\r\nPING\r\n"])
      (Value.Bulk (ascii "foo")) ⟨[], [ascii "*1\r\n$4\r\nPING\r\n"]⟩ (by decide)).1
      (by decide),
    by decide⟩

/-- C10 fails on a bulk-string cut short: with the stream ending inside the payload
(`$3\r\nfo`), or before the closing CRLF (`$3\r\nfoo`), `Read` returns a bulk-string of
the declared length with a nil error, the missing payload bytes zero; so does an array
whose last element is cut short. -/
theorem C10_truncated_bulk_accepted :
    Read (NewResp [ascii "$3\r\nfo"]) = (.ok (Value.Bulk [102, 111, 0]), ⟨[], []⟩) ∧
      Read (NewResp [ascii "$3\r\nfoo"]) = (.ok (Value.Bulk (ascii "foo")), ⟨[], []⟩) ∧
      Read (NewResp [ascii "*1\r\n$3\r\nfo"])
        = (.ok (Value.Array [Value.Bulk [102, 111, 0]]), ⟨[], []⟩) := by
  decide

theorem successiveReads_length (read : Reader → Outcome × Reader) (k : Nat) :
    ∀ (r r' : Reader) (vs : List Value), successiveReads read k r = some (vs, r') →
      vs.length = k := by
  induction k with
  | zero =>
    intro r r' vs h
    simp only [successiveReads, Option.some.injEq, Prod.mk.injEq] at h
    rw [← h.1]; rfl
  | succ k ih =>
    intro r r' vs h
    rw [successiveReads] at h
    rcases hq : read r with ⟨o, r1⟩
    rw [hq] at h
    cases o with
    | ok v =>
      simp only at h
      rcases hq2 : successiveReads read k r1 with _ | ⟨ws, r2⟩
      · rw [hq2] at h; simp at h
      · rw [hq2] at h
        simp only [Option.some.injEq, Prod.mk.injEq] at h
        rw [← h.1, List.length_cons, ih r1 r2 ws hq2]
    | error v e => simp at h
    | panic => simp at h

/-- The loop of `readArray`, when it returns with a nil error, returns what the
successive reads give. -/
theorem readArrayLoop_ok (read : Reader → Outcome × Reader) (k : Nat) :
    ∀ (r r' : Reader) (acc : List Value) (v : Value),
      readArrayLoop read k r acc = (.ok v, r') →
      ∃ vs, v = Value.Array (acc ++ vs) ∧ successiveReads read k r = some (vs, r') := by
  induction k with
  | zero =>
    intro r r' acc v h
    simp only [readArrayLoop, Prod.mk.injEq, Outcome.ok.injEq] at h
    exact ⟨[], by rw [← h.1]; simp, by rw [← h.2]; rfl⟩
  | succ k ih =>
    intro r r' acc v h
    rw [readArrayLoop] at h
    rcases hq : read r with ⟨o, r1⟩
    rw [hq] at h
    cases o with
    | ok val =>
      simp only at h
      obtain ⟨vs, hv, hs⟩ := ih r1 r' (acc ++ [val]) v h
      refine ⟨val :: vs, by rw [hv]; simp, ?_⟩
      rw [successiveReads, hq]
      simp only [hs]
    | error v e => simp at h
    | panic => simp at h

theorem successiveReads_congr (read₁ read₂ : Reader → Outcome × Reader) (bound : Nat)
    (hsize : ∀ r, (read₁ r).2.size ≤ r.size)
    (heq : ∀ r, r.size ≤ bound → read₁ r = read₂ r) (k : Nat) :
    ∀ r : Reader, r.size ≤ bound → successiveReads read₁ k r = successiveReads read₂ k r := by
  induction k with
  | zero => intro r _; rfl
  | succ k ih =>
    intro r hr
    have hs := hsize r
    rw [successiveReads, successiveReads, ← heq r hr]
    rcases hq : read₁ r with ⟨o, r1⟩
    rw [hq] at hs
    cases o with
    | ok val => simp only; rw [ih r1 (le_trans hs hr)]
    | error v e => rfl
    | panic => rfl

theorem marshalElems_eq_flatten (vs : List Value) :
    marshalElems vs = (vs.map Value.Marshal).flatten := by
  induction vs with
  | nil => rfl
  | cons v vs ih => simp [marshalElems, ih]

/-- `Aof.Read` leaves the bytes of the log as they are, whatever the callback. -/
theorem Aof_Read_content {σ : Type} (aof : Aof) (callback : Value → σ → Exec σ) (s : σ)
    (res : Option Error × σ × Aof) (h : Aof.Read aof callback s = .done res) :
    res.2.2.file.content = aof.file.content := by
  unfold Aof.Read at h
  split at h
  · simp at h
  · split at h
    · simp at h
    · simp only [Exec.done.injEq] at h
      rw [← h]; rfl
  · split at h
    · simp only [Exec.done.injEq] at h
      rw [← h]; rfl
    · simp only [Exec.done.injEq] at h
      rw [← h]; rfl

/-- C11 fails on a payload of 4095 bytes CR: the 4089 of them that are in the buffer
with the header are copied, the last 6 places stay zero, and the closing `readLine`
stops after two of the CR left over, so 4 payload bytes and the CRLF remain unread;
`Read` returns with a nil error. A payload that is buffered whole, CR and LF included,
is returned as it is. -/
theorem C11_long_payload_zero_padded :
    Read (NewResp [ascii "$4095\r\n" ++ List.replicate 4095 13 ++ ascii "\r\n"])
        = (.ok (Value.Bulk (List.replicate 4089 13 ++ List.replicate 6 0)),
            ⟨[13, 13, 13, 13, 13, 10], []⟩) ∧
      List.replicate 4089 13 ++ List.replicate 6 (0 : Byte) ≠ List.replicate 4095 13 ∧
      Read (NewResp [ascii "$4\r\n\r\n\n\r\r\nrest"])
        = (.ok (Value.Bulk [13, 10, 10, 13]), ⟨ascii "rest", []⟩) := by
  decide!

/-- C12: when `Read` succeeds on an array whose header declares `n`, then `n ≥ 0`, the
value returned is an array of exactly `n` elements, and they are, in order, what `n`
successive `Read`s from the byte after the header return, the stream left where the
last of them left it. -/
theorem C12_array_arity_and_order (r r1 r2 r' : Reader) (n : Int) (cnt : Nat) (v : Value)
    (hmark : r.ReadByte = (.ok ARRAY, r1))
    (hlen : readInteger r1 = (.ok (n, cnt), r2))
    (hread : Read r = (.ok v, r')) :
    0 ≤ n ∧ v.typ = "array" ∧ v.array.length = n.toNat ∧
      successiveReads Read n.toNat r2 = some (v.array, r') := by
  have hs := ReadByte_size_ok r ARRAY r1 hmark
  have hs2 := readInteger_size_le r1
  rw [hlen] at hs2
  simp only at hs2
  unfold Read at hread
  rw [ReadFuel, hmark] at hread
  simp only at hread
  rw [if_pos trivial] at hread
  unfold readArray at hread
  rw [hlen] at hread
  simp only at hread
  split at hread
  · simp at hread
  · rename_i hn
    obtain ⟨vs, hv, hsr⟩ := readArrayLoop_ok _ _ _ _ _ _ hread
    have hcongr := successiveReads_congr (ReadFuel r.size) Read r1.size
      (ReadFuel_size_le _)
      (fun x hx => (Read_eq_ReadFuel r.size x (by omega)).symm) n.toNat r2 hs2
    rw [hcongr] at hsr
    have hl := successiveReads_length _ _ _ _ _ hsr
    simp only [List.nil_append] at hv
    subst hv
    exact ⟨by omega, rfl, hl, hsr⟩

/-- C12 on an array of the two bulk-strings `a` and `b`, followed by more bytes. -/
theorem C12_array_arity_and_order_witness :
    (NewResp [ascii "*2\r\n$1\r\na\r\n$1\r\nb\r\n+x"]).ReadByte
        = (.ok ARRAY, ⟨ascii "2\r\n$1\r\na\r\n$1\r\nb\r\n+x", []⟩) ∧
      readInteger ⟨ascii "2\r\n$1\r\na\r\n$1\r\nb\r\n+x", []⟩
        = (.ok (2, 3), ⟨ascii "$1\r\na\r\n$1\r\nb\r\n+x", []⟩) ∧
      Read (NewResp [ascii "*2\r\n$1\r\na\r\n$1\r\nb\r\n+x"])
        = (.ok (Value.Array [Value.Bulk (ascii "a"), Value.Bulk (ascii "b")]),
            ⟨ascii "+x", []⟩) ∧
      successiveReads Read (2 : Int).toNat ⟨ascii "$1\r\na\r\n$1\r\nb\r\n+x", []⟩
        = some ((Value.Array [Value.Bulk (ascii "a"), Value.Bulk (ascii "b")]).array,
            ⟨ascii "+x", []⟩) :=
  ⟨by decide, by decide, by decide,
    (C12_array_arity_and_order (NewResp [ascii "*2\r\n$1\r\na\r\n$1\r\nb\r\n+x"])
      ⟨ascii "2\r\n$1\r\na\r\n$1\r\nb\r\n+x", []⟩ ⟨ascii "$1\r\na\r\n$1\r\nb\r\n+x", []⟩
      ⟨ascii "+x", []⟩ 2 3 (Value.Array [Value.Bulk (ascii "a"), Value.Bulk (ascii "b")])
      (by decide) (by decide) (by decide)).2.2.2⟩

/-- C13 fails on a negative length: on `*-1\r\n` the header is read, then
`make([]Value, length)` panics. On `*0\r\n` the empty array is returned, the header
alone consumed. -/
theorem C13_negative_array_length_panics :
    Read (NewResp [ascii "*-1\r\n$1\r\na\r\n"]) = (.panic, ⟨ascii "$1\r\na\r\n", []⟩) ∧
      Read (NewResp [ascii "*0\r\n$1\r\na\r\n"])
        = (.ok (Value.Array []), ⟨ascii "$1\r\na\r\n", []⟩) := by
  decide

/-- C14, as stated, fails: `Marshal` has no case for an integer, whose encoding is the
empty byte sequence, without the marker `:`. -/
theorem C14_integer_marshals_to_nothing :
    (Value.Integer 5).Marshal = [] ∧ (Value.Integer 5).Marshal.head? ≠ some INTEGER := by
  decide

/-- C14, amended: `Marshal` is defined on every `Value`; for the tags `string`, `error`,
`bulk`, `null` and `array` the encoding starts with the marker `+`, `-`, `$`, `$`, `*`
and is the one given here, the array's being its header followed by its elements'
encodings in order; for every other tag it is empty. -/
theorem C14_marshal_by_variant (v : Value) :
    (v.typ = "string" → v.Marshal = STRING :: (v.str ++ [CR, LF])) ∧
      (v.typ = "error" → v.Marshal = ERROR :: (v.str ++ [CR, LF])) ∧
      (v.typ = "bulk" →
        v.Marshal = BULK :: (Itoa (v.bulk.length : Int) ++ [CR, LF] ++ v.bulk ++ [CR, LF])) ∧
      (v.typ = "null" → v.Marshal = [BULK, 45, 49, CR, LF]) ∧
      (v.typ = "array" →
        v.Marshal = ARRAY :: (Itoa (v.array.length : Int) ++ [CR, LF]
          ++ (v.array.map Value.Marshal).flatten)) ∧
      (v.typ ≠ "string" → v.typ ≠ "error" → v.typ ≠ "bulk" → v.typ ≠ "null" →
        v.typ ≠ "array" → v.Marshal = []) := by
  obtain ⟨typ, str, num, bulk, array⟩ := v
  refine ⟨?_, ?_, ?_, ?_, ?_, ?_⟩
  · intro h
    simp only at h
    subst h
    simp [Value.Marshal, Value.marshallString]
  · intro h
    simp only at h
    subst h
    simp [Value.Marshal, Value.marshallError]
  · intro h
    simp only at h
    subst h
    simp [Value.Marshal, Value.marshallBulk]
  · intro h
    simp only at h
    subst h
    simp [Value.Marshal, Value.marshallNull, BULK, CR, LF]
  · intro h
    simp only at h
    subst h
    simp [Value.Marshal, marshalElems_eq_flatten]
  · intro h1 h2 h3 h4 h5
    simp only at h1 h2 h3 h4 h5
    simp [Value.Marshal, h1, h2, h3, h4, h5]

/-- C14, amended, on the request `SET k v` and on a value tagged `integer`. -/
theorem C14_marshal_by_variant_witness :
    setKV.typ = "array" ∧
      setKV.Marshal = ARRAY :: (Itoa (setKV.array.length : Int) ++ [CR, LF]
        ++ (setKV.array.map Value.Marshal).flatten) ∧
      (Value.Integer 7).Marshal = [] :=
  ⟨by decide, (C14_marshal_by_variant setKV).2.2.2.2.1 (by decide),
    (C14_marshal_by_variant (Value.Integer 7)).2.2.2.2.2
      (by decide) (by decide) (by decide) (by decide) (by decide)⟩

/-- C15 fails: `Aof.Read` returns nil on a log cut inside a record (the `io.EOF` met
there is taken for the end of the log, and a bulk-string cut short is not an error at
all), and on a log whose second record is malformed (it returns after the first). Only
a malformed length in the first record is reported. -/
theorem C15_replay_failure_not_reported :
    Aof.Read (NewAof (ascii "*3\r\n$3\r\nSET\r\n$1\r\nk\r\n")) recordCall []
        = .done (none, [], ⟨⟨ascii "*3\r\n$3\r\nSET\r\n$1\r\nk\r\n", 20⟩⟩) ∧
      Aof.Read (NewAof (ascii "*3\r\n$3\r\nSET\r\n$1\r\nk\r\n$5\r\nab")) recordCall []
        = .done (none,
            [Value.Array [Value.Bulk (ascii "SET"), Value.Bulk (ascii "k"),
              Value.Bulk (ascii "ab" ++ [0, 0, 0])]],
            ⟨⟨ascii "*3\r\n$3\r\nSET\r\n$1\r\nk\r\n$5\r\nab", 26⟩⟩) ∧
      Aof.Read (NewAof (setKV.Marshal ++ ascii "*x\r\n")) recordCall []
        = .done (none, [setKV], ⟨⟨setKV.Marshal ++ ascii "*x\r\n", 31⟩⟩) ∧
      Aof.Read (NewAof (ascii "*x\r\n")) recordCall []
        = .done (some .NumError, [], ⟨⟨ascii "*x\r\n", 4⟩⟩) := by
  decide

/-- C16: on a request whose first element names, once upper-cased, a registered command
(so on every request the live path persists), the replay callback calls the handler
that `handleConn` calls, with the same arguments, and leaves the same store; and
`Aof.Read` with that callback leaves the bytes of the log as they were and hands
nothing to `Aof.Write`. -/
theorem C16_replay_same_dispatch {σ : Type} (env : Env σ) (w : Server σ) (value first : Value)
    (args : List Value) (handler : List Value → σ → Value × σ)
    (htyp : value.typ = "array") (harr : value.array = first :: args)
    (hreg : env.Handlers (env.ToUpper first.bulk) = some handler) :
    replayCallback env value (w.store, w.trace)
        = .done ((handler args w.store).2,
            w.trace ++ [.handler (env.ToUpper first.bulk) args]) ∧
      handlerCalls (handleRequest env value w).trace
        = handlerCalls (w.trace ++ [.handler (env.ToUpper first.bulk) args]) ∧
      (handleRequest env value w).store = (handler args w.store).2 ∧
      (∀ (aof : Aof) (s : σ × List Event) (res : Option Error × (σ × List Event) × Aof),
        Aof.Read aof (replayCallback env) s = .done res →
          res.2.2.file.content = aof.file.content ∧ aofWrites res.2.1.2 = aofWrites s.2) := by
  refine ⟨?_, ?_, ?_, ?_⟩
  · simp only [replayCallback, harr, hreg]
  · rw [handleRequest_known env w value first args handler htyp harr hreg]
    split <;> simp [handlerCalls_append, handlerCalls]
  · rw [handleRequest_known env w value first args handler htyp harr hreg]
    split <;> rfl
  · intro aof s res h
    refine ⟨Aof_Read_content aof _ s res h, ?_⟩
    unfold Aof.Read at h
    split at h
    · simp at h
    · rename_i value' r' _
      split at h
      · simp at h
      · rename_i s1 hcb
        simp only [Exec.done.injEq] at h
        rw [← h]
        simp only
        unfold replayCallback at hcb
        split at hcb
        · simp at hcb
        · split at hcb
          · simp at hcb
          · simp only [Exec.done.injEq] at hcb
            rw [← hcb]
            simp [aofWrites_append, aofWrites]
    · split at h
      · simp only [Exec.done.injEq] at h
        rw [← h]
      · simp only [Exec.done.injEq] at h
        rw [← h]

/-- C16 on the log holding `SET k v`: the replay stores `k`, and the log is unchanged. -/
theorem C16_replay_same_dispatch_witness :
    setKV.typ = "array" ∧
      sampleEnv.Handlers (sampleEnv.ToUpper (Value.Bulk (ascii "SET")).bulk) = some setHandler ∧
      replayCallback sampleEnv setKV ((freshServer []).store, (freshServer []).trace)
        = .done ((setHandler [Value.Bulk (ascii "k"), Value.Bulk (ascii "v")]
              (freshServer []).store).2,
            (freshServer []).trace ++ [.handler (sampleEnv.ToUpper (Value.Bulk (ascii "SET")).bulk)
              [Value.Bulk (ascii "k"), Value.Bulk (ascii "v")]]) ∧
      Aof.Read (NewAof setKV.Marshal) (replayCallback sampleEnv) ([], [])
        = .done (none, ([(ascii "k", ascii "v")],
            [.handler (ascii "SET") [Value.Bulk (ascii "k"), Value.Bulk (ascii "v")]]),
            ⟨⟨setKV.Marshal, 27⟩⟩) :=
  ⟨by decide, rfl,
    (C16_replay_same_dispatch sampleEnv (freshServer []) setKV (Value.Bulk (ascii "SET"))
      [Value.Bulk (ascii "k"), Value.Bulk (ascii "v")] setHandler (by decide) (by decide) rfl).1,
    by decide⟩

/-- C17 fails on two requests that arrive together: every turn of the loop builds a new
`Resp` on the connection, and the bytes the previous one had buffered and not consumed
are gone with it. Of two `PING`s in one block only the first is answered; sent as two
blocks, both are. -/
theorem C17_pipelined_request_dropped :
    handleConn sampleEnv (freshServer [pingBytes ++ pingBytes])
        = .done ⟨[], ascii "+PONG\r\n", NewAof [], [],
            [.handler (ascii "PING") [], .connWrite (ascii "+PONG\r\n")]⟩ ∧
      handleConn sampleEnv (freshServer [pingBytes, pingBytes])
        = .done ⟨[], ascii "+PONG\r\n+PONG\r\n", NewAof [], [],
            [.handler (ascii "PING") [], .connWrite (ascii "+PONG\r\n"),
              .handler (ascii "PING") [], .connWrite (ascii "+PONG\r\n")]⟩ := by
  decide

/-- C18: when the first byte of the stream is neither `*` nor `$`, `Read` returns the
zero `Value` with a nil error and has consumed that byte and no other. -/
theorem C18_unrecognized_marker (r r1 : Reader) (b : Byte)
    (hb : r.ReadByte = (.ok b, r1)) (h1 : b ≠ ARRAY) (h2 : b ≠ BULK) :
    Read r = (.ok Value.zero, r1) ∧ r1.size + 1 = r.size := by
  refine ⟨?_, ReadByte_size_ok r b r1 hb⟩
  unfold Read
  rw [ReadFuel, hb]
  simp only
  rw [if_neg h1, if_neg h2]

/-- C18 on the stream `+OK\r\n`. -/
theorem C18_unrecognized_marker_witness :
    (NewResp [ascii "+OK\r\n"]).ReadByte = (.ok STRING, ⟨ascii "OK\r\n", []⟩) ∧
      STRING ≠ ARRAY ∧ STRING ≠ BULK ∧
      Read (NewResp [ascii "+OK\r\n"]) = (.ok Value.zero, ⟨ascii "OK\r\n", []⟩) :=
  ⟨by decide, by decide, by decide,
    (C18_unrecognized_marker (NewResp [ascii "+OK\r\n"]) ⟨ascii "OK\r\n", []⟩ STRING
      (by decide) (by decide) (by decide)).1⟩

/-- C19 fails on a negative declared length: on `$-1\r\n`, which is what `Marshal` writes
for the null bulk-string, `readBulk` reaches `make([]byte, -1)` and panics, and so does
`handleConn` on a connection that delivers it; `*-1\r\n` panics in `readArray`. -/
theorem C19_negative_length_panics :
    Read (NewResp [Value.Null.Marshal]) = (.panic, ⟨[], []⟩) ∧
      Value.Null.Marshal = ascii "$-1\r\n" ∧
      Read (NewResp [ascii "*-1\r\n"]) = (.panic, ⟨[], []⟩) ∧
      handleConn sampleEnv (freshServer [ascii "$-1\r\n"]) = .panic := by
  decide

/-- C20 fails: the replay callback indexes `value.array[0]` with none of the guards of
`handleConn`, so a record that is an empty array, or not an array, panics with an index
out of range; on a record whose command has no handler it dereferences the nil `err`. -/
theorem C20_replay_callback_panics :
    Aof.Read (NewAof (ascii "*0\r\n")) (replayCallback sampleEnv) ([], []) = .panic ∧
      Aof.Read (NewAof (ascii "$3\r\nfoo\r\n")) (replayCallback sampleEnv) ([], []) = .panic ∧
      Aof.Read (NewAof (ascii "*1\r\n$4\r\nNOPE\r\n")) (replayCallback sampleEnv) ([], [])
        = .panic := by
  refine ⟨?_, ?_, ?_⟩ <;> decide

/-- C6 fails on a `SET` received after the replay of a log longer than the buffer: the
replay leaves the file offset at 4096, `handleConn` calls `Aof.Write` once, before the
handler, and the record goes over bytes 4096 to 4122 of the log; the log is as long as
before, no record has been appended to it. -/
theorem C6_set_after_replay_overwrites :
    Aof.Read (NewAof longLog) (replayCallback sampleEnv) ([], [])
        = .done (none,
            ([(ascii "k", ascii "v")],
              [.handler (ascii "SET") [Value.Bulk (ascii "k"), Value.Bulk (ascii "v")]]),
            ⟨⟨longLog, 4096⟩⟩) ∧
      handleConn sampleEnv ⟨[setKW.Marshal], [], ⟨⟨longLog, 4096⟩⟩, [(ascii "k", ascii "v")], []⟩
        = .done ⟨[], ascii "+OK\r\n",
            ⟨⟨longLog.take 4096 ++ setKW.Marshal ++ longLog.drop 4123, 4123⟩⟩,
            [(ascii "k", ascii "w"), (ascii "k", ascii "v")],
            [.aofWrite setKW,
              .handler (ascii "SET") [Value.Bulk (ascii "k"), Value.Bulk (ascii "w")],
              .connWrite (ascii "+OK\r\n")]⟩ ∧
      (longLog.take 4096 ++ setKW.Marshal ++ longLog.drop 4123).length = longLog.length ∧
      longLog.take 4096 ++ setKW.Marshal ++ longLog.drop 4123 ≠ longLog ++ setKW.Marshal := by
  decide!

/-- C8 fails on `NOPE X` and a `PING` that arrive together: `+\r\n` is written for the
unknown command, and the `PING`, read into the buffer of that turn's reader, is gone
with it, never handled. Arriving in a block of its own, the `PING` is answered. -/
theorem C8_request_after_unknown_dropped :
    handleConn sampleEnv (freshServer [nopeBytes ++ pingBytes])
        = .done ⟨[], ascii "+\r\n", NewAof [], [], [.connWrite (ascii "+\r\n")]⟩ ∧
      handleConn sampleEnv (freshServer [nopeBytes, pingBytes])
        = .done ⟨[], ascii "+\r\n+PONG\r\n", NewAof [], [],
            [.connWrite (ascii "+\r\n"), .handler (ascii "PING") [],
              .connWrite (ascii "+PONG\r\n")]⟩ := by
  decide


end RedisCore
